import Mathlib

/-!
# ros_mono.cc: path utilities, frame adapter and shutdown sequence

A shallow embedding of `Examples_old/ROS/ORB_SLAM3/src/ros_mono.cc`.

* `std::string` is a list of characters (`CString`); `size_t` values are natural numbers
  below `2 ^ 64`, `string::npos` is `2 ^ 64 - 1`, and `pos + 1` wraps modulo `2 ^ 64`.
  `World.mkdir` takes a path as a string without NUL, which `c_str()` hands whole to the
  kernel, and knows no length limit; `World.mkdirC` adds the reading up to the first NUL and
  the limits `NAME_MAX` and `PATH_MAX`.
* The operating system is outside the file: `mkdir(2)` and the two `open(2)` modes used by
  `ifstream` / `ofstream` are modelled, as Linux behaves, on a directory tree without symbolic
  links and without permission bits (every directory, also one the program has just created,
  is writable and searchable, every entry readable; the umask plays no part) and without
  limits on space, inodes or links.
  In particular `mkdir` ignores trailing separators, and an open for reading succeeds on a
  directory as well as on a file.
* The tracking engine, the ROS transport and `cv_bridge` are black boxes; every call made to
  them is recorded in a chronological event trace.
-/

namespace RosMono

/-! ## Strings and `size_t` -/

/-- A `std::string`: its characters in order, one list element for each `char`. -/
abbrev CString := List Char

/-- The constant `std::string::npos`, the largest `size_t`. -/
def npos : Nat := 2 ^ 64 - 1

/-- Scan for `ch`: `i` is the index of the head of the list that is still to be searched. -/
def findFrom (ch : Char) : CString → Nat → Nat
  | [], _ => npos
  | c :: cs, i => if c = ch then i else findFrom ch cs (i + 1)

/-- `s.find(ch, pos)`: index of the first `ch` at an index `≥ pos`, or `npos`. -/
def find (s : CString) (ch : Char) (pos : Nat) : Nat :=
  findFrom ch (s.drop pos) pos

/-- `s.substr(pos, n)`: the characters `[pos, pos + min n (size - pos))`.  The only call site
uses `pos = 0`, where `std::out_of_range` (thrown for `pos > size`) cannot occur. -/
def substr (s : CString) (pos n : Nat) : CString :=
  (s.drop pos).take n

/-! ## Results of `mkdir` -/

/-- The `errno` values the model distinguishes. -/
inductive Errno
  | EEXIST
  | ENOENT
  | ENOTDIR
  | ENAMETOOLONG
  | EISDIR
  | EACCES
  | EOTHER
  deriving DecidableEq, Repr

/-- Outcome of one `mkdir` call: `ok` is return value `0`; `fail e` is a non-zero return value
with `errno` set to `e`. -/
inductive MkdirResult
  | ok
  | fail (e : Errno)
  deriving DecidableEq, Repr

/-- The C condition `mkdir(...) && errno != EEXIST`. -/
def MkdirResult.hardFailure : MkdirResult → Bool
  | .ok => false
  | .fail e => decide (e ≠ Errno.EEXIST)

/-- The C condition `mkdir(...) == 0 || errno == EEXIST`. -/
def MkdirResult.okOrExists : MkdirResult → Bool
  | .ok => true
  | .fail e => decide (e = Errno.EEXIST)

/-! ## `createDirectoryWithParents` (lines 45-56) -/

/-- What one execution of the `do { ... } while (pos != string::npos)` body decides. -/
inductive LoopStep (σ : Type)
  | again (pos : Nat) (s : σ)
  | done (result : Bool) (s : σ)

/-- One execution of the loop body (lines 48-54) entered with the value `pos`, against a
`mkdir` that acts on a state of type `σ`. -/
def cdwpBody {σ : Type} (mkdir : CString → σ → MkdirResult × σ) (dirname : CString)
    (pos : Nat) (s : σ) : LoopStep σ :=
  let pos1 := find dirname '/' ((pos + 1) % 2 ^ 64)
  let subdir := substr dirname 0 pos1
  let r := mkdir subdir s
  if r.1.hardFailure then LoopStep.done false r.2
  else if pos1 ≠ npos then LoopStep.again pos1 r.2
  else LoopStep.done true r.2

/-- The do-while loop, with a bound on the number of iterations; `none` when the bound is
reached before the loop ends. -/
def cdwpLoop {σ : Type} (mkdir : CString → σ → MkdirResult × σ) (dirname : CString) :
    Nat → Nat → σ → Option (Bool × σ)
  | 0, _, _ => none
  | fuel + 1, pos, s =>
    match cdwpBody mkdir dirname pos s with
    | LoopStep.again pos1 s1 => cdwpLoop mkdir dirname fuel pos1 s1
    | LoopStep.done b s1 => some (b, s1)

/-- The function `createDirectoryWithParents(dirname)`: the loop started at `pos = 0`, allowed
one iteration per character and one more. -/
def createDirectoryWithParents {σ : Type} (mkdir : CString → σ → MkdirResult × σ)
    (dirname : CString) (s : σ) : Option (Bool × σ) :=
  cdwpLoop mkdir dirname (dirname.length + 1) 0 s

/-- Wrap a `mkdir` so that the state also carries the list of paths it was called on, oldest
first. -/
def recording {σ : Type} (mkdir : CString → σ → MkdirResult × σ) :
    CString → σ × List CString → MkdirResult × (σ × List CString) :=
  fun d s => ((mkdir d s.1).1, ((mkdir d s.1).2, s.2 ++ [d]))

/-- The loop states the function passes through: `(pos, s)` at each entry of the body. -/
inductive Reaches {σ : Type} (mkdir : CString → σ → MkdirResult × σ) (dirname : CString)
    (s0 : σ) : Nat → σ → Prop
  | start : Reaches mkdir dirname s0 0 s0
  | next {pos pos1 : Nat} {s s1 : σ} : Reaches mkdir dirname s0 pos s →
      cdwpBody mkdir dirname pos s = LoopStep.again pos1 s1 → Reaches mkdir dirname s0 pos1 s1

/-! ### The attempt sequence in the words of the specification -/

/-- The prefixes `p[0..i)` for the indices `i ≥ 1` with `p[i] = '/'`, in increasing order. -/
def separatorPrefixes (p : CString) : List CString :=
  ((List.range p.length).filter (fun i => decide (1 ≤ i) && decide (p[i]? = some '/'))).map
    (fun i => p.take i)

/-- Every separator prefix, then the complete path. -/
def attemptSequence (p : CString) : List CString :=
  separatorPrefixes p ++ [p]

/-- Call `mkdir` on the listed paths in order; go on after success and after `EEXIST`, stop
with `false` at the first other failure, end with `true` when the list is exhausted. -/
def tryInOrder {σ : Type} (mkdir : CString → σ → MkdirResult × σ) :
    List CString → σ → Bool × σ
  | [], s => (true, s)
  | d :: ds, s =>
    if (mkdir d s).1.hardFailure then (false, (mkdir d s).2)
    else tryInOrder mkdir ds (mkdir d s).2

/-- The indices `i ≥ k` with `p[i] = '/'`, in increasing order. -/
def sepsFrom (p : CString) (k : Nat) : List Nat :=
  (List.range' k (p.length - k)).filter (fun i => decide (p[i]? = some '/'))

/-! ## The file system

Path resolution follows `path_resolution(7)` on a tree without symbolic links: a leading `/`
starts at the root, anything else at the working directory; empty components (repeated or
trailing separators) are skipped; `.` stays, `..` moves to the parent (the root is its own
parent); every component but the last must be an existing directory. -/

/-- A name inside a directory. -/
abbrev Name := CString

/-- A location in the tree: the names on the way from the root, innermost first; `[]` is the
root. -/
abbrev Loc := List Name

/-- An entry of the tree: a regular file with its content, or a directory. -/
inductive Node
  | file (content : CString)
  | dir
  deriving DecidableEq, Repr

/-- A file system state: the entry (if any) at every location, and the working directory. -/
structure FS where
  node : Loc → Option Node
  cwd : Loc

/-- Every entry other than the root lies in a directory. -/
def FS.WellFormed (fs : FS) : Prop :=
  ∀ (n : Name) (l : Loc), fs.node (n :: l) ≠ none → fs.node l = some Node.dir

/-- Put an entry at a location. -/
def FS.set (fs : FS) (l : Loc) (n : Node) : FS :=
  { fs with node := fun x => if x = l then some n else fs.node x }

/-- Split on `/`, skipping empty components; `acc` is the component being read, reversed. -/
def splitAux : CString → CString → List Name
  | [], acc => if acc = [] then [] else [acc.reverse]
  | c :: cs, acc =>
    if c = '/' then (if acc = [] then splitAux cs [] else acc.reverse :: splitAux cs [])
    else splitAux cs (c :: acc)

/-- The non-empty components of a path. -/
def components (p : CString) : List Name :=
  splitAux p []

/-- The component `.`. -/
def dot : Name := ['.']

/-- The component `..`. -/
def dotdot : Name := ['.', '.']

/-- Where resolution of `p` starts. -/
def FS.start (fs : FS) (p : CString) : Loc :=
  if p.head? = some '/' then [] else fs.cwd

/-- Move from the directory `cur` through the component `c`, which must lead to a
directory. -/
def FS.enter (fs : FS) (cur : Loc) (c : Name) : Except Errno Loc :=
  let next := if c = dot then cur else if c = dotdot then cur.tail else c :: cur
  match fs.node next with
  | some Node.dir => Except.ok next
  | some (Node.file _) => Except.error Errno.ENOTDIR
  | none => Except.error Errno.ENOENT

/-- Move through a list of components, each of which must lead to a directory. -/
def FS.walk (fs : FS) : Loc → List Name → Except Errno Loc
  | cur, [] => Except.ok cur
  | cur, c :: cs =>
    match fs.enter cur c with
    | Except.error e => Except.error e
    | Except.ok next => fs.walk next cs

/-- The system call `mkdir(p, 0777)`. -/
def FS.mkdir (p : CString) (fs : FS) : MkdirResult × FS :=
  if p = [] then (MkdirResult.fail Errno.ENOENT, fs)
  else if fs.node (fs.start p) ≠ some Node.dir then (MkdirResult.fail Errno.ENOENT, fs)
  else
    match (components p).reverse with
    | [] => (MkdirResult.fail Errno.EEXIST, fs)
    | last :: before =>
      match fs.walk (fs.start p) before.reverse with
      | Except.error e => (MkdirResult.fail e, fs)
      | Except.ok parent =>
        if last = dot ∨ last = dotdot then (MkdirResult.fail Errno.EEXIST, fs)
        else
          match fs.node (last :: parent) with
          | some _ => (MkdirResult.fail Errno.EEXIST, fs)
          | none => (MkdirResult.ok, fs.set (last :: parent) Node.dir)

/-- Resolve `p` to an existing entry, as `open(p, O_RDONLY)` does. -/
def FS.lookup (fs : FS) (p : CString) : Except Errno (Loc × Node) :=
  if p = [] then Except.error Errno.ENOENT
  else if fs.node (fs.start p) ≠ some Node.dir then Except.error Errno.ENOENT
  else
    match (components p).reverse with
    | [] => Except.ok (fs.start p, Node.dir)
    | last :: before =>
      match fs.walk (fs.start p) before.reverse with
      | Except.error e => Except.error e
      | Except.ok parent =>
        if last = dot ∨ last = dotdot then
          match fs.enter parent last with
          | Except.error e => Except.error e
          | Except.ok l => Except.ok (l, Node.dir)
        else
          match fs.node (last :: parent) with
          | none => Except.error Errno.ENOENT
          | some Node.dir => Except.ok (last :: parent, Node.dir)
          | some (Node.file c) =>
            if p.getLast? = some '/' then Except.error Errno.ENOTDIR
            else Except.ok (last :: parent, Node.file c)

/-- The call `open(p, O_WRONLY | O_CREAT | O_TRUNC, 0666)` made by `ofstream`: the error, or
the state in which `p` is a regular file of length zero. -/
def FS.openTrunc (p : CString) (fs : FS) : Except Errno FS :=
  if p = [] then Except.error Errno.ENOENT
  else if fs.node (fs.start p) ≠ some Node.dir then Except.error Errno.ENOENT
  else
    match (components p).reverse with
    | [] => Except.error Errno.EISDIR
    | last :: before =>
      match fs.walk (fs.start p) before.reverse with
      | Except.error e => Except.error e
      | Except.ok parent =>
        if last = dot ∨ last = dotdot then Except.error Errno.EISDIR
        else if p.getLast? = some '/' then Except.error Errno.EISDIR
        else
          match fs.node (last :: parent) with
          | some Node.dir => Except.error Errno.EISDIR
          | _ => Except.ok (fs.set (last :: parent) (Node.file []))

/-- A name that can be an entry of a directory: not empty, no separator inside, neither `.`
nor `..`. -/
def plainName (n : Name) : Bool :=
  decide (n ≠ []) && decide ('/' ∉ n) && decide (n ≠ dot) && decide (n ≠ dotdot)

/-- The path `d` names the existing directory at `D`. -/
def FS.ResolvesToDir (fs : FS) (d : CString) (D : Loc) : Prop :=
  d ≠ [] ∧ fs.node (fs.start d) = some Node.dir ∧
    fs.walk (fs.start d) (components d) = Except.ok D

/-- The path `c` names the entry `n` (existing or not) of the existing directory at `D`. -/
def FS.ParentIs (fs : FS) (c : CString) (D : Loc) (n : Name) : Prop :=
  c ≠ [] ∧ c.getLast? ≠ some '/' ∧ fs.node (fs.start c) = some Node.dir ∧
    n ≠ dot ∧ n ≠ dotdot ∧
    ∃ before : List Name, components c = before ++ [n] ∧
      fs.walk (fs.start c) before = Except.ok D

/-- The state after `if (!fileExists(f) && !createFile(f))` on an entry that is not a
directory: a missing entry becomes an empty file, an existing one is left alone. -/
def FS.ensureFile (fs : FS) (l : Loc) : FS :=
  if fs.node l = none then fs.set l (Node.file []) else fs

/-! ## The world seen by the program

Calls to the kernel, to ROS, to `cv_bridge` and to the tracking engine are recorded, oldest
first.  Text written to `cerr` and to the ROS log is not recorded. -/

/-- A ROS time stamp (`header.stamp`). -/
structure Stamp where
  sec : Nat
  nsec : Nat
  deriving DecidableEq, Repr

/-- The value of `stamp.toSec()`; the rounding to `double` is not modelled. -/
def Stamp.toSec (t : Stamp) : ℚ :=
  (t.sec : ℚ) + (t.nsec : ℚ) / 1000000000

/-- The address of an `ORB_SLAM3::System` object. -/
abbrev EngineRef := Nat

/-- One call that leaves the program. -/
inductive Event (Img : Type)
  | rosInit
  | rosStart
  | rosShutdown
  | systemCtor (vocabulary settings : CString)
  | subscribe (topic : CString) (queueSize : Nat)
  | rosSpin
  | slamShutdown
  | trackMonocular (engine : EngineRef) (image : Img) (timestamp : ℚ)
  | mkdir (path : CString) (result : MkdirResult)
  | openRead (path : CString) (opened : Bool)
  | openWrite (path : CString) (opened : Bool)
  | saveKeyFrameTrajectoryTUM (path : CString)
  | saveKeyPointsAndMapPoints (path : CString)
  | savePointcloud (path : CString)
  deriving DecidableEq

/-- File system and the calls made so far. -/
structure World (Img : Type) where
  fs : FS
  trace : List (Event Img)

/-- Append one event. -/
def World.log {Img : Type} (w : World Img) (e : Event Img) : World Img :=
  { w with trace := w.trace ++ [e] }

/-- The call `mkdir(p, 0777)` made by the program. -/
def World.mkdir {Img : Type} (p : CString) (w : World Img) : MkdirResult × World Img :=
  ((w.fs.mkdir p).1,
    { fs := (w.fs.mkdir p).2, trace := w.trace ++ [Event.mkdir p (w.fs.mkdir p).1] })

/-! ## Length limits and C strings

`FS.mkdir` above has no limit on lengths.  The kernel has two: a component longer than
`NAME_MAX` and a path of `PATH_MAX` characters or more are refused with `ENAMETOOLONG`; and it
reads a path up to its first NUL.  `World.mkdirC` is the call `mkdir(p.c_str(), 0777)` with
both.  On a path without NUL that is within the limits it is the same call as `World.mkdir`;
this covers the paths `main` passes. -/

/-- The constant `NAME_MAX` of Linux: the largest length of one component. -/
def NAME_MAX : Nat := 255

/-- The constant `PATH_MAX` of Linux: the largest length of a path, its terminating NUL
counted. -/
def PATH_MAX : Nat := 4096

/-- The NUL character. -/
def NUL : Char := Char.ofNat 0

/-- The C string `s.c_str()` as the kernel reads it: the characters before the first NUL. -/
def cStr (s : CString) : CString :=
  s.takeWhile (fun c => decide (c ≠ NUL))

/-- As `FS.enter`, after the length of the component has been checked. -/
def FS.enterBounded (fs : FS) (cur : Loc) (c : Name) : Except Errno Loc :=
  if NAME_MAX < c.length then Except.error Errno.ENAMETOOLONG else fs.enter cur c

/-- As `FS.walk`, through `FS.enterBounded`. -/
def FS.walkBounded (fs : FS) : Loc → List Name → Except Errno Loc
  | cur, [] => Except.ok cur
  | cur, c :: cs =>
    match fs.enterBounded cur c with
    | Except.error e => Except.error e
    | Except.ok next => fs.walkBounded next cs

/-- The system call `mkdir(p, 0777)` with the limits `PATH_MAX` and `NAME_MAX`. -/
def FS.mkdirBounded (p : CString) (fs : FS) : MkdirResult × FS :=
  if p = [] then (MkdirResult.fail Errno.ENOENT, fs)
  else if PATH_MAX ≤ p.length then (MkdirResult.fail Errno.ENAMETOOLONG, fs)
  else if fs.node (fs.start p) ≠ some Node.dir then (MkdirResult.fail Errno.ENOENT, fs)
  else
    match (components p).reverse with
    | [] => (MkdirResult.fail Errno.EEXIST, fs)
    | last :: before =>
      match fs.walkBounded (fs.start p) before.reverse with
      | Except.error e => (MkdirResult.fail e, fs)
      | Except.ok parent =>
        if last = dot ∨ last = dotdot then (MkdirResult.fail Errno.EEXIST, fs)
        else if NAME_MAX < last.length then (MkdirResult.fail Errno.ENAMETOOLONG, fs)
        else
          match fs.node (last :: parent) with
          | some _ => (MkdirResult.fail Errno.EEXIST, fs)
          | none => (MkdirResult.ok, fs.set (last :: parent) Node.dir)

/-- The call `mkdir(p.c_str(), 0777)` made by the program, with the limits of the kernel. -/
def World.mkdirC {Img : Type} (p : CString) (w : World Img) : MkdirResult × World Img :=
  ((w.fs.mkdirBounded (cStr p)).1,
    { fs := (w.fs.mkdirBounded (cStr p)).2,
      trace := w.trace ++ [Event.mkdir (cStr p) (w.fs.mkdirBounded (cStr p)).1] })

/-- A path the kernel reads whole and does not refuse for its length: no NUL, shorter than
`PATH_MAX`, no component longer than `NAME_MAX`. -/
def withinLimits (p : CString) : Bool :=
  decide (NUL ∉ p) && decide (p.length < PATH_MAX) &&
    (components p).all (fun c => decide (c.length ≤ NAME_MAX))

/-! ## `fileExists`, `createFile`, `createDirectory` (lines 21-42) -/

/-- The function `fileExists(filename)`: construct an `ifstream` and return `good()`, that is,
whether the open for reading succeeded. -/
def fileExists {Img : Type} (filename : CString) (w : World Img) : Bool × World Img :=
  match w.fs.lookup filename with
  | Except.ok _ => (true, w.log (Event.openRead filename true))
  | Except.error _ => (false, w.log (Event.openRead filename false))

/-- The function `createFile(filename)`: construct an `ofstream` (open, create, truncate) and
return `is_open()`. -/
def createFile {Img : Type} (filename : CString) (w : World Img) : Bool × World Img :=
  match w.fs.openTrunc filename with
  | Except.ok fs1 => (true, { fs := fs1, trace := w.trace ++ [Event.openWrite filename true] })
  | Except.error _ => (false, w.log (Event.openWrite filename false))

/-- The function `createDirectory(dirname)`: `mkdir(...) == 0 || errno == EEXIST`. -/
def createDirectory {Img : Type} (dirname : CString) (w : World Img) : Bool × World Img :=
  ((World.mkdir dirname w).1.okOrExists, (World.mkdir dirname w).2)

/-! ## `ImageGrabber` (lines 58-65, 137-148) -/

/-- The exception type `cv_bridge::Exception`. -/
structure CvBridgeException where
  what : CString
  deriving DecidableEq, Repr

/-- What `cv_bridge::toCvShare` returns: the image view and the message header stamp. -/
structure CvImage (Img : Type) where
  image : Img
  stamp : Stamp

/-- The class `ImageGrabber`: one pointer to the engine. -/
structure ImageGrabber where
  mpSLAM : EngineRef
  deriving DecidableEq, Repr

/-- The method `ImageGrabber::GrabImage(msg)`.  `Except.error` would be an exception leaving
the method; the result also carries the object after the call. -/
def ImageGrabber.GrabImage {Msg Img : Type}
    (toCvShare : Msg → Except CvBridgeException (CvImage Img))
    (self : ImageGrabber) (msg : Msg) (w : World Img) :
    Except CvBridgeException (ImageGrabber × World Img) :=
  match toCvShare msg with
  | Except.error _ => Except.ok (self, w)
  | Except.ok cv_ptr =>
    Except.ok (self, w.log (Event.trackMonocular self.mpSLAM cv_ptr.image cv_ptr.stamp.toSec))

/-- The transport delivers the messages one at a time, in order, to `GrabImage`. -/
def deliver {Msg Img : Type} (toCvShare : Msg → Except CvBridgeException (CvImage Img)) :
    ImageGrabber → List Msg → World Img → Except CvBridgeException (ImageGrabber × World Img)
  | igb, [], w => Except.ok (igb, w)
  | igb, msg :: rest, w =>
    match igb.GrabImage toCvShare msg w with
    | Except.error e => Except.error e
    | Except.ok r => deliver toCvShare r.1 rest r.2

/-! ## `main` (lines 67-135) -/

/-- Everything `main` receives from outside. -/
structure Env (Msg Img : Type) where
  /-- Address of the local `SLAM` object. -/
  slam : EngineRef
  /-- Messages delivered while `ros::spin()` runs. -/
  frames : List Msg
  /-- The conversion `cv_bridge::toCvShare`. -/
  toCvShare : Msg → Except CvBridgeException (CvImage Img)
  /-- File system when the process starts. -/
  fsAtStart : FS
  /-- File system found when `SLAM.Shutdown()` has returned. -/
  fsAtShutdown : FS
  /-- The string `ss.str()` produced by `put_time(..., "%Y%m%d_%H%M%S")`. -/
  currentTime : CString
  /-- What an export call of the engine does to the file system. -/
  exportEffect : Event Img → FS → FS

/-- One engine export call: recorded, and the file system changed as the engine decides. -/
def World.export {Img : Type} (effect : Event Img → FS → FS) (call : Event Img)
    (w : World Img) : World Img :=
  { fs := effect call w.fs, trace := w.trace ++ [call] }

/-- The loop of lines 120-126 over the remaining file names: `false` stands for the early
`return -1`. -/
def prepareFiles {Img : Type} : List CString → World Img → Bool × World Img
  | [], w => (true, w)
  | filename :: rest, w =>
    if (fileExists filename w).1 then prepareFiles rest (fileExists filename w).2
    else if (createFile filename (fileExists filename w).2).1 then
      prepareFiles rest (createFile filename (fileExists filename w).2).2
    else (false, (createFile filename (fileExists filename w).2).2)

/-- The vector `filenames` of lines 114-118. -/
def filenames (directoryName : CString) : List CString :=
  [directoryName ++ "/KeyFrameTrajectory.txt".toList,
   directoryName ++ "/images.txt".toList,
   directoryName ++ "/points3D.txt".toList]

/-- Lines 98-134: everything after the time stamp has been formatted.  The result is the
value returned by `main` and the world at that moment; `none` if the function does not
return. -/
def shutdownSequence {Img : Type} (exportEffect : Event Img → FS → FS)
    (currentTime : CString) (w : World Img) : Option (Int × World Img) :=
  let directoryName := "./dataset/".toList ++ currentTime
  match createDirectoryWithParents World.mkdir "./dataset".toList w with
  | none => none
  | some (false, w1) => some (-1, w1.log Event.rosShutdown)
  | some (true, w1) =>
    if (createDirectory directoryName w1).1 = false then
      some (-1, (createDirectory directoryName w1).2.log Event.rosShutdown)
    else
      match prepareFiles (filenames directoryName) (createDirectory directoryName w1).2 with
      | (false, w3) => some (-1, w3.log Event.rosShutdown)
      | (true, w3) =>
        let w4 := w3.export exportEffect
          (Event.saveKeyFrameTrajectoryTUM (directoryName ++ "/KeyFrameTrajectory.txt".toList))
        let w5 := w4.export exportEffect
          (Event.saveKeyPointsAndMapPoints (directoryName ++ "/images.txt".toList))
        let w6 := w5.export exportEffect
          (Event.savePointcloud (directoryName ++ "/points3D.txt".toList))
        some (0, w6.log Event.rosShutdown)

/-- The function `main`.  `argc` is the value tested on line 71 (`ros::init` receives it by
reference); `argv` are the argument strings.  `none` if `main` does not return. -/
def main {Msg Img : Type} (env : Env Msg Img) (argc : Int) (argv : List CString) :
    Option (Int × World Img) :=
  let w0 : World Img := { fs := env.fsAtStart, trace := [Event.rosInit, Event.rosStart] }
  if argc ≠ 3 then some (1, w0.log Event.rosShutdown)
  else
    let w1 := w0.log (Event.systemCtor (argv.getD 1 []) (argv.getD 2 []))
    let igb : ImageGrabber := { mpSLAM := env.slam }
    let w2 := (w1.log (Event.subscribe "/camera/image_raw".toList 1)).log Event.rosSpin
    match deliver env.toCvShare igb env.frames w2 with
    | Except.error _ => none
    | Except.ok r =>
      shutdownSequence env.exportEffect env.currentTime
        { fs := env.fsAtShutdown, trace := r.2.trace ++ [Event.slamShutdown] }

/-! ## Vocabulary of the claims -/

/-- Whether an event is one of the three export calls of the engine. -/
def Event.isExport {Img : Type} : Event Img → Bool
  | Event.saveKeyFrameTrajectoryTUM _ => true
  | Event.saveKeyPointsAndMapPoints _ => true
  | Event.savePointcloud _ => true
  | _ => false

/-- The export calls in a trace, in order. -/
def exportCalls {Img : Type} (trace : List (Event Img)) : List (Event Img) :=
  trace.filter Event.isExport

/-- Whether an event is a file system call (`mkdir`, or an open made by a stream). -/
def Event.isFileOp {Img : Type} : Event Img → Bool
  | Event.mkdir _ _ => true
  | Event.openRead _ _ => true
  | Event.openWrite _ _ => true
  | _ => false

/-- The engine call a message leads to: none when its conversion throws. -/
def forwarded {Msg Img : Type} (toCvShare : Msg → Except CvBridgeException (CvImage Img))
    (engine : EngineRef) (msg : Msg) : Option (Event Img) :=
  match toCvShare msg with
  | Except.error _ => none
  | Except.ok cv_ptr => some (Event.trackMonocular engine cv_ptr.image cv_ptr.stamp.toSec)

/-- A string of the form `YYYYMMDD_HHMMSS`, as `put_time` writes for `"%Y%m%d_%H%M%S"`. -/
def isTimestamp (ts : CString) : Bool :=
  decide (ts.length = 15) && (ts.take 8).all Char.isDigit && decide (ts[8]? = some '_') &&
    (ts.drop 9).all Char.isDigit

/-- A relative path written from its segments: `s1/s2/.../sn`. -/
def joinPath : List Name → CString
  | [] => []
  | [s] => s
  | s :: t :: rest => s ++ '/' :: joinPath (t :: rest)

/-- The paths `s1`, `s1/s2`, ..., `s1/.../sn`, each written after the text `acc`. -/
def pathChain (acc : CString) : List Name → List CString
  | [] => []
  | s :: rest => (acc ++ s) :: pathChain (acc ++ s ++ ['/']) rest

/-- The state in which the directories `s1`, `s1/s2`, ... have been put below `D`. -/
def FS.withDirs (fs : FS) (D : Loc) : List Name → FS
  | [] => fs
  | s :: rest => (fs.set (s :: D) Node.dir).withDirs (s :: D) rest

/-- The attempts of `createDirectoryWithParents` on the text `rest` that follows the text
`acc` already read. -/
def attemptsFrom : CString → CString → List CString
  | acc, [] => [acc]
  | acc, c :: cs =>
    if c = '/' ∧ acc ≠ [] then acc :: attemptsFrom (acc ++ [c]) cs
    else attemptsFrom (acc ++ [c]) cs

/-! ## Sample file systems -/

/-- A tree that holds the root directory only; the working directory is the root. -/
def emptyTree : FS :=
  { node := fun l => if l = [] then some Node.dir else none, cwd := [] }

/-- The root directory with a regular file `f` in it. -/
def treeWithFile : FS :=
  emptyTree.set ["f".toList] (Node.file "x".toList)

/-- The root directory with a regular file named `dataset` in it. -/
def treeWithDatasetFile : FS :=
  emptyTree.set ["dataset".toList] (Node.file "x".toList)

/-- The root directory with a directory `out` that holds a file `images.txt` with content. -/
def treeWithOutput : FS :=
  (emptyTree.set ["out".toList] Node.dir).set ["images.txt".toList, "out".toList]
    (Node.file "1 2 3".toList)

/-- A run without frames in which the engine exports change nothing on disk. -/
def quietEnv (fs : FS) (ts : CString) : Env Unit Unit :=
  { slam := 0, frames := [], toCvShare := fun _ => Except.error { what := [] },
    fsAtStart := fs, fsAtShutdown := fs, currentTime := ts,
    exportEffect := fun _ fs1 => fs1 }

/-! ## Lemmas on `find` and the separator indices -/

theorem drop_cons_info {p : CString} {i : Nat} {c : Char} {cs : CString}
    (h : p.drop i = c :: cs) : p[i]? = some c ∧ p.drop (i + 1) = cs ∧ i < p.length := by
  have h1 : (p.drop i)[0]? = some c := by rw [h]; simp
  rw [List.getElem?_drop] at h1
  have h2 : p.drop (i + 1) = cs := by
    have : (p.drop i).drop 1 = cs := by rw [h]; rfl
    simpa [List.drop_drop, Nat.add_comm] using this
  have h3 : i < p.length := by
    by_contra hc
    rw [List.drop_eq_nil_of_le (by omega)] at h
    cases h
  exact ⟨by simpa using h1, h2, h3⟩

theorem findFrom_spec (p : CString) :
    ∀ (cs : CString) (i : Nat), p.drop i = cs →
      (findFrom '/' cs i = npos ∧
          (List.range' i cs.length).filter (fun j => decide (p[j]? = some '/')) = []) ∨
      (i ≤ findFrom '/' cs i ∧ findFrom '/' cs i < p.length ∧
          p[findFrom '/' cs i]? = some '/' ∧
          (List.range' i cs.length).filter (fun j => decide (p[j]? = some '/')) =
            findFrom '/' cs i :: sepsFrom p (findFrom '/' cs i + 1)) := by
  intro cs
  induction cs with
  | nil => intro i _; left; simp [findFrom]
  | cons c cs ih =>
    intro i h
    obtain ⟨hget, hdrop, hlt⟩ := drop_cons_info h
    have hlen : cs.length = p.length - (i + 1) := by
      rw [← hdrop, List.length_drop]
    by_cases hc : c = '/'
    · right
      subst hc
      simp only [findFrom, if_true, List.length_cons, List.range'_succ]
      refine ⟨le_refl _, hlt, hget, ?_⟩
      have hfil : ∀ L : List Nat,
          List.filter (fun j => decide (p[j]? = some '/')) (i :: L) =
            i :: List.filter (fun j => decide (p[j]? = some '/')) L := by
        intro L; simp [List.filter_cons, hget]
      rw [hfil]
      simp only [sepsFrom, hlen]
    · have hfil : ∀ L : List Nat,
          List.filter (fun j => decide (p[j]? = some '/')) (i :: L) =
            List.filter (fun j => decide (p[j]? = some '/')) L := by
        intro L; simp [List.filter_cons, hget, hc]
      simp only [findFrom, if_neg hc, List.length_cons, List.range'_succ]
      rw [hfil]
      rcases ih (i + 1) hdrop with h1 | ⟨h1, h2⟩
      · left; exact h1
      · right; exact ⟨by omega, h2⟩

theorem find_spec (p : CString) (k : Nat) :
    (find p '/' k = npos ∧ sepsFrom p k = []) ∨
    (k ≤ find p '/' k ∧ find p '/' k < p.length ∧ p[find p '/' k]? = some '/' ∧
      sepsFrom p k = find p '/' k :: sepsFrom p (find p '/' k + 1)) := by
  have h := findFrom_spec p (p.drop k) k rfl
  simp only [List.length_drop] at h
  exact h

theorem separatorPrefixes_eq (p : CString) :
    separatorPrefixes p = (sepsFrom p 1).map (fun i => p.take i) := by
  unfold separatorPrefixes sepsFrom
  congr 1
  cases hp : p.length with
  | zero => simp
  | succ n =>
    rw [List.range_eq_range', List.range'_succ, List.filter_cons_of_neg (by simp)]
    simp only [Nat.add_sub_cancel, Nat.zero_add]
    apply List.filter_congr
    intro x hx
    have : 1 ≤ x := by
      rw [List.mem_range'_1] at hx
      exact hx.1
    simp [this]

/-- The loop, entered at a position inside the string, performs the remaining attempts. -/
theorem cdwpLoop_eq {σ : Type} (mkdir : CString → σ → MkdirResult × σ) (p : CString)
    (hlen : p.length < npos) :
    ∀ (fuel pos : Nat) (s : σ), pos ≤ p.length → p.length + 1 ≤ fuel + pos →
      cdwpLoop mkdir p fuel pos s =
        some (tryInOrder mkdir ((sepsFrom p (pos + 1)).map (fun i => p.take i) ++ [p]) s) := by
  intro fuel
  induction fuel with
  | zero => intro pos s h1 h2; omega
  | succ fuel ih =>
    intro pos s h1 h2
    have hmod : (pos + 1) % 2 ^ 64 = pos + 1 := by
      apply Nat.mod_eq_of_lt
      unfold npos at hlen
      omega
    simp only [cdwpLoop, cdwpBody, hmod]
    rcases find_spec p (pos + 1) with ⟨hf, hs⟩ | ⟨hle, hlt, _, hs⟩
    · have htake : substr p 0 npos = p := by
        simp only [substr, List.drop_zero]
        exact List.take_of_length_le (le_of_lt hlen)
      rw [hf, hs, htake]
      by_cases hh : (mkdir p s).1.hardFailure = true
      · simp [tryInOrder, hh]
      · simp [tryInOrder, hh]
    · have hne : find p '/' (pos + 1) ≠ npos := by omega
      rw [hs]
      simp only [List.map_cons, List.cons_append, tryInOrder, substr, List.drop_zero]
      by_cases hh : (mkdir (List.take (find p '/' (pos + 1)) p) s).1.hardFailure = true
      · simp [hh]
      · simp only [hh, if_false, hne, ne_eq, not_false_eq_true, if_true, Bool.false_eq_true]
        exact ih _ _ (le_of_lt hlt) (by omega)

/-- The function performs exactly the attempts of `attemptSequence`, in order. -/
theorem createDirectoryWithParents_eq {σ : Type} (mkdir : CString → σ → MkdirResult × σ)
    (p : CString) (hlen : p.length < npos) (s : σ) :
    createDirectoryWithParents mkdir p s = some (tryInOrder mkdir (attemptSequence p) s) := by
  unfold createDirectoryWithParents attemptSequence
  rw [separatorPrefixes_eq]
  exact cdwpLoop_eq mkdir p hlen _ 0 s (Nat.zero_le _) (by omega)

/-- A recording `mkdir` gives the same results, and its log is the list of paths tried. -/
theorem tryInOrder_recording {σ : Type} (mkdir : CString → σ → MkdirResult × σ) :
    ∀ (l : List CString) (s : σ) (log0 : List CString),
      (tryInOrder (recording mkdir) l (s, log0)).1 = (tryInOrder mkdir l s).1 ∧
      (tryInOrder (recording mkdir) l (s, log0)).2.1 = (tryInOrder mkdir l s).2 ∧
      (((tryInOrder mkdir l s).1 = true ∧
          (tryInOrder (recording mkdir) l (s, log0)).2.2 = log0 ++ l) ∨
        ((tryInOrder mkdir l s).1 = false ∧
          ∃ (init : List CString) (d : CString) (rest : List CString) (s2 : σ),
            l = init ++ d :: rest ∧
            (tryInOrder (recording mkdir) l (s, log0)).2.2 = log0 ++ (init ++ [d]) ∧
            tryInOrder mkdir init s = (true, s2) ∧ (mkdir d s2).1.hardFailure = true)) := by
  intro l
  induction l with
  | nil => intro s log0; simp [tryInOrder]
  | cons d ds ih =>
    intro s log0
    by_cases hh : (mkdir d s).1.hardFailure = true
    · simp only [tryInOrder, recording, hh, if_true, true_and]
      right
      refine ⟨[], d, ds, s, rfl, rfl, rfl, hh⟩
    · simp only [tryInOrder, recording, hh, if_false, Bool.false_eq_true]
      obtain ⟨h1, h2, h3⟩ := ih (mkdir d s).2 (log0 ++ [d])
      refine ⟨h1, h2, ?_⟩
      rcases h3 with ⟨h3, h4⟩ | ⟨h3, init, e, rest, s2, h4, h5, h6, h7⟩
      · left
        refine ⟨h3, ?_⟩
        rw [h4]; simp
      · right
        refine ⟨h3, d :: init, e, rest, s2, by rw [h4]; rfl, ?_, ?_, h7⟩
        · rw [h5]; simp
        · simp only [tryInOrder, hh, if_false, Bool.false_eq_true]
          exact h6

theorem reaches_bound {σ : Type} (mkdir : CString → σ → MkdirResult × σ) (p : CString)
    (s0 : σ) {pos : Nat} {s : σ} (h : Reaches mkdir p s0 pos s) :
    pos = 0 ∨ pos < p.length := by
  induction h with
  | start => left; rfl
  | @next pos pos1 s s1 _ hb _ =>
    right
    unfold cdwpBody at hb
    simp only at hb
    split at hb
    · cases hb
    · split at hb
      · rename_i hne
        injection hb with hb1 hb2
        rcases find_spec p ((pos + 1) % 2 ^ 64) with ⟨hf, _⟩ | ⟨_, hlt, _⟩
        · exact absurd hf hne
        · rw [← hb1]; exact hlt
      · cases hb

theorem body_again_increases {σ : Type} (mkdir : CString → σ → MkdirResult × σ) (p : CString)
    (hlen : p.length < npos) {pos pos1 : Nat} {s s1 : σ} (hpos : pos = 0 ∨ pos < p.length)
    (hb : cdwpBody mkdir p pos s = LoopStep.again pos1 s1) : pos < pos1 := by
  have hmod : (pos + 1) % 2 ^ 64 = pos + 1 := by
    apply Nat.mod_eq_of_lt
    unfold npos at hlen
    omega
  unfold cdwpBody at hb
  simp only [hmod] at hb
  split at hb
  · cases hb
  · split at hb
    · rename_i hne
      injection hb with hb1 hb2
      rcases find_spec p (pos + 1) with ⟨hf, _⟩ | ⟨hle, _, _⟩
      · exact absurd hf hne
      · omega
    · cases hb

theorem sepsFrom_length (p : CString) :
    ∀ (cs : CString) (i : Nat), p.drop i = cs →
      ((List.range' i cs.length).filter (fun j => decide (p[j]? = some '/'))).length =
        cs.count '/' := by
  intro cs
  induction cs with
  | nil => intro i _; simp
  | cons c cs ih =>
    intro i h
    obtain ⟨hget, hdrop, _⟩ := drop_cons_info h
    simp only [List.length_cons, List.range'_succ, List.filter_cons, hget]
    by_cases hc : c = '/'
    · subst hc
      simp [ih (i + 1) hdrop]
    · have hc2 : ¬ ('/' = c) := fun h => hc h.symm
      simp [hc, ih (i + 1) hdrop, List.count_cons, hc2]

theorem attemptSequence_length (p : CString) :
    (attemptSequence p).length = 1 + (p.drop 1).count '/' := by
  unfold attemptSequence
  rw [separatorPrefixes_eq, List.length_append, List.length_map]
  have h := sepsFrom_length p (p.drop 1) 1 rfl
  simp only [List.length_drop] at h
  unfold sepsFrom
  rw [h]
  simp [Nat.add_comm]

theorem separatorPrefixes_eq_attempt (p : CString) :
    (sepsFrom p (0 + 1)).map (fun i => p.take i) ++ [p] = attemptSequence p := by
  unfold attemptSequence
  rw [separatorPrefixes_eq]

/-! ## Lemmas on traces -/

theorem deliver_eq {Msg Img : Type} (toCvShare : Msg → Except CvBridgeException (CvImage Img)) :
    ∀ (msgs : List Msg) (igb : ImageGrabber) (w : World Img),
      deliver toCvShare igb msgs w =
        Except.ok (igb, { fs := w.fs,
                          trace := w.trace ++ msgs.filterMap (forwarded toCvShare igb.mpSLAM) }) := by
  intro msgs
  induction msgs with
  | nil => intro igb w; simp [deliver]
  | cons m ms ih =>
    intro igb w
    unfold deliver ImageGrabber.GrabImage
    cases hm : toCvShare m with
    | error e =>
      simp only [ih, forwarded, hm, List.filterMap_cons]
    | ok cv =>
      simp only [ih, forwarded, hm, List.filterMap_cons, World.log, List.append_assoc,
        List.singleton_append]

theorem tryInOrder_world_trace {Img : Type} :
    ∀ (l : List CString) (w : World Img),
      ∃ evs : List (Event Img),
        (tryInOrder World.mkdir l w).2.trace = w.trace ++ evs ∧
        ∀ e ∈ evs, ∃ d r, e = Event.mkdir d r := by
  intro l
  induction l with
  | nil => intro w; exact ⟨[], by simp [tryInOrder], by simp⟩
  | cons d ds ih =>
    intro w
    by_cases hh : (World.mkdir d w).1.hardFailure = true
    · refine ⟨[Event.mkdir d (w.fs.mkdir d).1], ?_, ?_⟩
      · simp only [tryInOrder, hh, if_true]; rfl
      · intro e he
        simp only [List.mem_singleton] at he
        exact ⟨_, _, he⟩
    · obtain ⟨evs, h1, h2⟩ := ih (World.mkdir d w).2
      refine ⟨Event.mkdir d (w.fs.mkdir d).1 :: evs, ?_, ?_⟩
      · simp only [tryInOrder, hh, if_false, Bool.false_eq_true]
        rw [h1]
        simp [World.mkdir]
      · intro e he
        rcases List.mem_cons.mp he with he | he
        · exact ⟨_, _, he⟩
        · exact h2 e he

theorem prepareFiles_trace {Img : Type} :
    ∀ (l : List CString) (w : World Img),
      ∃ evs : List (Event Img),
        (prepareFiles l w).2.trace = w.trace ++ evs ∧
        ∀ e ∈ evs, (∃ d r, e = Event.openRead d r) ∨ (∃ d r, e = Event.openWrite d r) := by
  intro l
  induction l with
  | nil => intro w; exact ⟨[], by simp [prepareFiles], by simp⟩
  | cons f fs ih =>
    intro w
    have hfe : ∃ r, (fileExists f w).2.trace = w.trace ++ [Event.openRead f r] := by
      unfold fileExists
      cases w.fs.lookup f <;> exact ⟨_, rfl⟩
    obtain ⟨r1, hr1⟩ := hfe
    have hcf : ∀ v : World Img, ∃ r, (createFile f v).2.trace = v.trace ++ [Event.openWrite f r] := by
      intro v
      unfold createFile
      cases v.fs.openTrunc f <;> exact ⟨_, rfl⟩
    obtain ⟨r2, hr2⟩ := hcf (fileExists f w).2
    unfold prepareFiles
    by_cases h1 : (fileExists f w).1 = true
    · obtain ⟨evs, h2, h3⟩ := ih (fileExists f w).2
      refine ⟨Event.openRead f r1 :: evs, ?_, ?_⟩
      · simp only [h1, if_true]
        rw [h2, hr1]; simp
      · intro e he
        rcases List.mem_cons.mp he with he | he
        · left; exact ⟨_, _, he⟩
        · exact h3 e he
    · by_cases h4 : (createFile f (fileExists f w).2).1 = true
      · obtain ⟨evs, h2, h3⟩ := ih (createFile f (fileExists f w).2).2
        refine ⟨Event.openRead f r1 :: Event.openWrite f r2 :: evs, ?_, ?_⟩
        · simp only [h1, h4, if_true, if_false, Bool.false_eq_true]
          rw [h2, hr2, hr1]; simp
        · intro e he
          rcases List.mem_cons.mp he with he | he
          · left; exact ⟨_, _, he⟩
          · rcases List.mem_cons.mp he with he | he
            · right; exact ⟨_, _, he⟩
            · exact h3 e he
      · refine ⟨[Event.openRead f r1, Event.openWrite f r2], ?_, ?_⟩
        · simp only [h1, h4, if_false, Bool.false_eq_true]
          rw [hr2, hr1]; simp
        · intro e he
          simp only [List.mem_cons, List.mem_singleton, List.not_mem_nil, or_false] at he
          rcases he with he | he
          · left; exact ⟨_, _, he⟩
          · right; exact ⟨_, _, he⟩

theorem exportCalls_append_of_none {Img : Type} (t evs : List (Event Img))
    (h : ∀ e ∈ evs, e.isExport = false) : exportCalls (t ++ evs) = exportCalls t := by
  unfold exportCalls
  rw [List.filter_append]
  have : List.filter Event.isExport evs = [] := by
    rw [List.filter_eq_nil_iff]
    intro e he
    simp [h e he]
  rw [this, List.append_nil]

/-! ## Lemmas on the shutdown sequence -/

theorem datasetDir_length : "./dataset".toList.length < npos := by decide

theorem datasetDir_attempts :
    attemptSequence "./dataset".toList = [".".toList, "./dataset".toList] := by decide

theorem cdwp_dataset {Img : Type} (w : World Img) :
    createDirectoryWithParents World.mkdir "./dataset".toList w =
      some (tryInOrder World.mkdir [".".toList, "./dataset".toList] w) := by
  rw [createDirectoryWithParents_eq World.mkdir _ datasetDir_length w, datasetDir_attempts]

/-- The shutdown sequence with the first step replaced by its two `mkdir` attempts. -/
theorem shutdownSequence_eq {Img : Type} (effect : Event Img → FS → FS) (ts : CString)
    (w : World Img) :
    shutdownSequence effect ts w =
      if (tryInOrder World.mkdir [".".toList, "./dataset".toList] w).1 = false then
        some (-1, (tryInOrder World.mkdir [".".toList, "./dataset".toList] w).2.log
          Event.rosShutdown)
      else if (createDirectory ("./dataset/".toList ++ ts)
          (tryInOrder World.mkdir [".".toList, "./dataset".toList] w).2).1 = false then
        some (-1, (createDirectory ("./dataset/".toList ++ ts)
          (tryInOrder World.mkdir [".".toList, "./dataset".toList] w).2).2.log Event.rosShutdown)
      else if (prepareFiles (filenames ("./dataset/".toList ++ ts))
          (createDirectory ("./dataset/".toList ++ ts)
            (tryInOrder World.mkdir [".".toList, "./dataset".toList] w).2).2).1 = false then
        some (-1, (prepareFiles (filenames ("./dataset/".toList ++ ts))
          (createDirectory ("./dataset/".toList ++ ts)
            (tryInOrder World.mkdir [".".toList, "./dataset".toList] w).2).2).2.log
              Event.rosShutdown)
      else
        some (0, ((((prepareFiles (filenames ("./dataset/".toList ++ ts))
          (createDirectory ("./dataset/".toList ++ ts)
            (tryInOrder World.mkdir [".".toList, "./dataset".toList] w).2).2).2.export effect
          (Event.saveKeyFrameTrajectoryTUM
            (("./dataset/".toList ++ ts) ++ "/KeyFrameTrajectory.txt".toList))).export effect
          (Event.saveKeyPointsAndMapPoints
            (("./dataset/".toList ++ ts) ++ "/images.txt".toList))).export effect
          (Event.savePointcloud
            (("./dataset/".toList ++ ts) ++ "/points3D.txt".toList))).log Event.rosShutdown) := by
  unfold shutdownSequence
  rw [cdwp_dataset]
  generalize tryInOrder World.mkdir [".".toList, "./dataset".toList] w = r1
  obtain ⟨b1, w1⟩ := r1
  cases b1 with
  | false => simp
  | true =>
    simp only [Bool.true_eq_false, if_false]
    by_cases h2 : (createDirectory ("./dataset/".toList ++ ts) w1).1 = false
    · simp only [h2, if_true]
    · simp only [h2, if_false]
      generalize prepareFiles (filenames ("./dataset/".toList ++ ts))
        (createDirectory ("./dataset/".toList ++ ts) w1).2 = r3
      obtain ⟨b3, w3⟩ := r3
      cases b3 <;> simp

theorem main_eq {Msg Img : Type} (env : Env Msg Img) (argv : List CString) :
    main env 3 argv =
      shutdownSequence env.exportEffect env.currentTime
        { fs := env.fsAtShutdown,
          trace := [Event.rosInit, Event.rosStart,
              Event.systemCtor (argv.getD 1 []) (argv.getD 2 []),
              Event.subscribe "/camera/image_raw".toList 1, Event.rosSpin] ++
            env.frames.filterMap (forwarded env.toCvShare env.slam) ++ [Event.slamShutdown] } := by
  unfold main
  simp only [ne_eq, not_true_eq_false, if_false, deliver_eq, World.log, List.cons_append,
    List.nil_append]

theorem exportCalls_tryInOrder {Img : Type} (l : List CString) (w : World Img) :
    exportCalls (tryInOrder World.mkdir l w).2.trace = exportCalls w.trace := by
  obtain ⟨evs, h1, h2⟩ := tryInOrder_world_trace l w
  rw [h1]
  apply exportCalls_append_of_none
  intro e he
  obtain ⟨d, r, rfl⟩ := h2 e he
  rfl

theorem exportCalls_createDirectory {Img : Type} (d : CString) (w : World Img) :
    exportCalls (createDirectory d w).2.trace = exportCalls w.trace := by
  unfold createDirectory World.mkdir
  apply exportCalls_append_of_none
  intro e he
  simp only [List.mem_singleton] at he
  subst he
  rfl

theorem exportCalls_prepareFiles {Img : Type} (l : List CString) (w : World Img) :
    exportCalls (prepareFiles l w).2.trace = exportCalls w.trace := by
  obtain ⟨evs, h1, h2⟩ := prepareFiles_trace l w
  rw [h1]
  apply exportCalls_append_of_none
  intro e he
  rcases h2 e he with ⟨d, r, rfl⟩ | ⟨d, r, rfl⟩ <;> rfl

theorem exportCalls_session {Msg Img : Type} (env : Env Msg Img) (argv : List CString) :
    exportCalls ([Event.rosInit, Event.rosStart,
        Event.systemCtor (argv.getD 1 []) (argv.getD 2 []),
        Event.subscribe "/camera/image_raw".toList 1, Event.rosSpin] ++
      env.frames.filterMap (forwarded env.toCvShare env.slam) ++ [Event.slamShutdown]) = [] := by
  unfold exportCalls
  rw [List.filter_eq_nil_iff]
  intro e he
  simp only [List.mem_append, List.mem_cons, List.mem_singleton, List.not_mem_nil, or_false,
    List.mem_filterMap] at he
  rcases he with (he | ⟨m, _, hm⟩) | he
  · rcases he with he | he | he | he | he <;> subst he <;> simp [Event.isExport]
  · unfold forwarded at hm
    cases hc : env.toCvShare m with
    | error e1 => rw [hc] at hm; cases hm
    | ok cv =>
      rw [hc] at hm
      simp only [Option.some.injEq] at hm
      subst hm
      simp [Event.isExport]
  · subst he; simp [Event.isExport]

theorem main_session {Msg Img : Type} (env : Env Msg Img) (argv : List CString) :
    ∃ pre : List (Event Img), exportCalls pre = [] ∧
      main env 3 argv = shutdownSequence env.exportEffect env.currentTime
        { fs := env.fsAtShutdown, trace := pre } :=
  ⟨_, exportCalls_session env argv, main_eq env argv⟩

/-! ## Lemmas on path components -/

theorem splitAux_append_slash (a b : CString) :
    ∀ acc : CString, splitAux (a ++ '/' :: b) acc = splitAux a acc ++ splitAux b [] := by
  induction a with
  | nil =>
    intro acc
    by_cases h : acc = [] <;> simp [splitAux, h]
  | cons c cs ih =>
    intro acc
    by_cases hc : c = '/'
    · by_cases h : acc = [] <;> simp [splitAux, hc, h, ih]
    · simp [splitAux, hc, ih]

theorem components_append_slash (a b : CString) :
    components (a ++ '/' :: b) = components a ++ components b :=
  splitAux_append_slash a b []

theorem splitAux_noslash (s : CString) (hs : '/' ∉ s) :
    ∀ acc : CString,
      splitAux s acc = if acc.reverse ++ s = [] then [] else [acc.reverse ++ s] := by
  induction s with
  | nil =>
    intro acc
    by_cases h : acc = [] <;> simp [splitAux, h]
  | cons c cs ih =>
    intro acc
    have hc : c ≠ '/' := by
      intro h; apply hs; rw [h]; exact List.mem_cons_self _ _
    have hcs : '/' ∉ cs := fun h => hs (List.mem_cons_of_mem _ h)
    simp [splitAux, hc, ih hcs]

theorem plainName_spec {n : Name} (h : plainName n = true) :
    n ≠ [] ∧ '/' ∉ n ∧ n ≠ dot ∧ n ≠ dotdot := by
  simpa [plainName, and_assoc] using h

theorem components_plain {n : Name} (h : plainName n = true) : components n = [n] := by
  obtain ⟨h1, h2, _, _⟩ := plainName_spec h
  unfold components
  rw [splitAux_noslash n h2 []]
  simp [h1]

theorem components_child (d : CString) {n : Name} (h : plainName n = true) :
    components (d ++ '/' :: n) = components d ++ [n] := by
  rw [components_append_slash, components_plain h]

theorem getLast_plain {n : Name} (h : plainName n = true) (d : CString) :
    (d ++ n).getLast? ≠ some '/' := by
  obtain ⟨h1, h2, _, _⟩ := plainName_spec h
  intro hl
  rw [List.getLast?_append_of_ne_nil _ h1] at hl
  exact h2 (List.mem_of_getLast?_eq_some hl)

theorem start_append (fs : FS) {d : CString} (hd : d ≠ []) (x : CString) :
    fs.start (d ++ x) = fs.start d := by
  cases d with
  | nil => exact absurd rfl hd
  | cons c cs => rfl

theorem start_plain (fs : FS) {n : Name} (h : plainName n = true) (x : CString) :
    fs.start (n ++ x) = fs.cwd := by
  obtain ⟨h1, h2, _, _⟩ := plainName_spec h
  cases n with
  | nil => exact absurd rfl h1
  | cons c cs =>
    have hc : c ≠ '/' := by
      intro hc; apply h2; rw [hc]; exact List.mem_cons_self _ _
    simp [FS.start, hc]

/-! ## Lemmas on path resolution -/

theorem walk_append (fs : FS) :
    ∀ (xs ys : List Name) (cur : Loc),
      fs.walk cur (xs ++ ys) =
        match fs.walk cur xs with
        | Except.error e => Except.error e
        | Except.ok l => fs.walk l ys := by
  intro xs
  induction xs with
  | nil => intro ys cur; rfl
  | cons x xs ih =>
    intro ys cur
    simp only [List.cons_append, FS.walk]
    cases fs.enter cur x with
    | error e => rfl
    | ok l => exact ih ys l

theorem enter_plain (fs : FS) (D : Loc) {n : Name} (h1 : n ≠ dot) (h2 : n ≠ dotdot) :
    fs.enter D n =
      match fs.node (n :: D) with
      | some Node.dir => Except.ok (n :: D)
      | some (Node.file _) => Except.error Errno.ENOTDIR
      | none => Except.error Errno.ENOENT := by
  simp only [FS.enter, h1, h2, if_false]

theorem enter_ok_dir (fs : FS) {cur L : Loc} {c : Name} (h : fs.enter cur c = Except.ok L) :
    fs.node L = some Node.dir := by
  unfold FS.enter at h
  simp only at h
  split at h
  · rename_i heq
    injection h with h
    rw [← h]; exact heq
  · cases h
  · cases h

theorem enter_mono (fs fs1 : FS) (hm : ∀ l, fs.node l = some Node.dir → fs1.node l = some Node.dir)
    {cur L : Loc} {c : Name} (h : fs.enter cur c = Except.ok L) :
    fs1.enter cur c = Except.ok L := by
  have hd := enter_ok_dir fs h
  unfold FS.enter at h ⊢
  simp only at h ⊢
  split at h
  · rename_i heq
    injection h with h
    rw [hm _ heq, h]
  · cases h
  · cases h

theorem walk_mono (fs fs1 : FS)
    (hm : ∀ l, fs.node l = some Node.dir → fs1.node l = some Node.dir) :
    ∀ (cs : List Name) (cur L : Loc), fs.walk cur cs = Except.ok L →
      fs1.walk cur cs = Except.ok L := by
  intro cs
  induction cs with
  | nil => intro cur L h; exact h
  | cons c cs ih =>
    intro cur L h
    simp only [FS.walk] at h ⊢
    cases he : fs.enter cur c with
    | error e => rw [he] at h; cases h
    | ok l =>
      rw [he] at h
      rw [enter_mono fs fs1 hm he]
      exact ih l L h

theorem mkdir_of_parentIs (fs : FS) {c : CString} {D : Loc} {n : Name}
    (h : fs.ParentIs c D n) :
    fs.mkdir c =
      match fs.node (n :: D) with
      | some _ => (MkdirResult.fail Errno.EEXIST, fs)
      | none => (MkdirResult.ok, fs.set (n :: D) Node.dir) := by
  obtain ⟨h1, _, h3, h4, h5, before, h6, h7⟩ := h
  unfold FS.mkdir
  simp only [h1, if_false, h3, ne_eq, not_true_eq_false, h6, List.reverse_append,
    List.reverse_cons, List.reverse_nil, List.nil_append, List.singleton_append,
    List.reverse_reverse, h7, h4, h5, or_self]

theorem lookup_of_parentIs (fs : FS) {c : CString} {D : Loc} {n : Name}
    (h : fs.ParentIs c D n) :
    fs.lookup c =
      match fs.node (n :: D) with
      | none => Except.error Errno.ENOENT
      | some Node.dir => Except.ok (n :: D, Node.dir)
      | some (Node.file x) => Except.ok (n :: D, Node.file x) := by
  obtain ⟨h1, h2, h3, h4, h5, before, h6, h7⟩ := h
  unfold FS.lookup
  simp only [h1, if_false, h3, ne_eq, not_true_eq_false, h6, List.reverse_append,
    List.reverse_cons, List.reverse_nil, List.nil_append, List.singleton_append,
    List.reverse_reverse, h7, h4, h5, or_self, h2]

theorem openTrunc_of_parentIs (fs : FS) {c : CString} {D : Loc} {n : Name}
    (h : fs.ParentIs c D n) :
    fs.openTrunc c =
      match fs.node (n :: D) with
      | some Node.dir => Except.error Errno.EISDIR
      | _ => Except.ok (fs.set (n :: D) (Node.file [])) := by
  obtain ⟨h1, h2, h3, h4, h5, before, h6, h7⟩ := h
  unfold FS.openTrunc
  simp only [h1, if_false, h3, ne_eq, not_true_eq_false, h6, List.reverse_append,
    List.reverse_cons, List.reverse_nil, List.nil_append, List.singleton_append,
    List.reverse_reverse, h7, h4, h5, or_self, h2]

theorem parentIs_child (fs : FS) {d : CString} {D : Loc} {n : Name}
    (hd : fs.ResolvesToDir d D) (hn : plainName n = true) :
    fs.ParentIs (d ++ '/' :: n) D n := by
  obtain ⟨h1, h2, h3⟩ := hd
  obtain ⟨_, _, n3, n4⟩ := plainName_spec hn
  refine ⟨by simp, ?_, ?_, n3, n4, components d, components_child d hn, ?_⟩
  · have := getLast_plain hn (d ++ ['/'])
    simpa using this
  · rw [start_append fs h1]; exact h2
  · rw [start_append fs h1]; exact h3

theorem parentIs_root (fs : FS) {n : Name} (hc : fs.node fs.cwd = some Node.dir)
    (hn : plainName n = true) : fs.ParentIs n fs.cwd n := by
  obtain ⟨n1, _, n3, n4⟩ := plainName_spec hn
  have hs : fs.start n = fs.cwd := by
    have := start_plain fs hn []
    simpa using this
  refine ⟨n1, ?_, ?_, n3, n4, [], by simp [components_plain hn], ?_⟩
  · have := getLast_plain hn []
    simpa using this
  · rw [hs]; exact hc
  · rw [hs]; rfl

theorem resolvesToDir_of_parentIs (fs : FS) {c : CString} {D : Loc} {n : Name}
    (h : fs.ParentIs c D n) (hn : fs.node (n :: D) = some Node.dir) :
    fs.ResolvesToDir c (n :: D) := by
  obtain ⟨h1, _, h3, h4, h5, before, h6, h7⟩ := h
  refine ⟨h1, h3, ?_⟩
  rw [h6, walk_append, h7]
  simp only [FS.walk, enter_plain fs D h4 h5, hn]

theorem resolvesToDir_mono (fs fs1 : FS) (hcwd : fs1.cwd = fs.cwd)
    (hm : ∀ l, fs.node l = some Node.dir → fs1.node l = some Node.dir)
    {d : CString} {D : Loc} (h : fs.ResolvesToDir d D) : fs1.ResolvesToDir d D := by
  obtain ⟨h1, h2, h3⟩ := h
  have hs : fs1.start d = fs.start d := by simp only [FS.start, hcwd]
  refine ⟨h1, ?_, ?_⟩
  · rw [hs]; exact hm _ h2
  · rw [hs]; exact walk_mono fs fs1 hm _ _ _ h3

theorem parentIs_mono (fs fs1 : FS) (hcwd : fs1.cwd = fs.cwd)
    (hm : ∀ l, fs.node l = some Node.dir → fs1.node l = some Node.dir)
    {c : CString} {D : Loc} {n : Name} (h : fs.ParentIs c D n) : fs1.ParentIs c D n := by
  obtain ⟨h1, h2, h3, h4, h5, before, h6, h7⟩ := h
  have hs : fs1.start c = fs.start c := by simp only [FS.start, hcwd]
  refine ⟨h1, h2, ?_, h4, h5, before, h6, ?_⟩
  · rw [hs]; exact hm _ h3
  · rw [hs]; exact walk_mono fs fs1 hm _ _ _ h7

/-- What resolving to a directory means for the last component. -/
theorem resolvesToDir_cases (fs : FS) {d : CString} {D : Loc} (h : fs.ResolvesToDir d D) :
    (components d = [] ∧ D = fs.start d) ∨
    ∃ (before : List Name) (last : Name) (parent : Loc),
      components d = before ++ [last] ∧ fs.walk (fs.start d) before = Except.ok parent ∧
      fs.enter parent last = Except.ok D := by
  obtain ⟨_, _, h3⟩ := h
  rcases List.eq_nil_or_concat (components d) with hnil | ⟨before, last, hc⟩
  · left
    rw [hnil] at h3
    simp only [FS.walk] at h3
    injection h3 with h3
    exact ⟨hnil, h3.symm⟩
  · right
    rw [List.concat_eq_append] at hc
    rw [hc, walk_append] at h3
    cases hw : fs.walk (fs.start d) before with
    | error e => rw [hw] at h3; cases h3
    | ok parent =>
      rw [hw] at h3
      simp only [FS.walk] at h3
      cases he : fs.enter parent last with
      | error e => rw [he] at h3; cases h3
      | ok l =>
        rw [he] at h3
        injection h3 with h3
        exact ⟨before, last, parent, hc, hw, by rw [← h3]; exact he⟩

theorem enter_ok_plain (fs : FS) {parent D : Loc} {last : Name}
    (he : fs.enter parent last = Except.ok D) (h : ¬ (last = dot ∨ last = dotdot)) :
    D = last :: parent ∧ fs.node (last :: parent) = some Node.dir := by
  have h1 : last ≠ dot := fun x => h (Or.inl x)
  have h2 : last ≠ dotdot := fun x => h (Or.inr x)
  rw [enter_plain fs parent h1 h2] at he
  split at he
  · rename_i heq
    injection he with he
    exact ⟨he.symm, heq⟩
  · cases he
  · cases he

theorem mkdir_of_resolvesToDir (fs : FS) {d : CString} {D : Loc}
    (h : fs.ResolvesToDir d D) : fs.mkdir d = (MkdirResult.fail Errno.EEXIST, fs) := by
  have hc := resolvesToDir_cases fs h
  obtain ⟨h1, h2, _⟩ := h
  unfold FS.mkdir
  simp only [h1, if_false, h2, ne_eq, not_true_eq_false]
  rcases hc with ⟨hnil, _⟩ | ⟨before, last, parent, hc, hw, he⟩
  · simp only [hnil, List.reverse_nil]
  · simp only [hc, List.reverse_append, List.reverse_cons, List.reverse_nil, List.nil_append,
      List.singleton_append, List.reverse_reverse, hw]
    by_cases hdots : last = dot ∨ last = dotdot
    · simp only [hdots, if_true]
    · obtain ⟨_, hn⟩ := enter_ok_plain fs he hdots
      simp only [hdots, if_false, hn]

theorem lookup_of_resolvesToDir (fs : FS) {d : CString} {D : Loc}
    (h : fs.ResolvesToDir d D) : fs.lookup d = Except.ok (D, Node.dir) := by
  have hc := resolvesToDir_cases fs h
  obtain ⟨h1, h2, _⟩ := h
  unfold FS.lookup
  simp only [h1, if_false, h2, ne_eq, not_true_eq_false]
  rcases hc with ⟨hnil, hD⟩ | ⟨before, last, parent, hc, hw, he⟩
  · simp only [hnil, List.reverse_nil, hD]
  · simp only [hc, List.reverse_append, List.reverse_cons, List.reverse_nil, List.nil_append,
      List.singleton_append, List.reverse_reverse, hw]
    by_cases hdots : last = dot ∨ last = dotdot
    · simp only [hdots, if_true, he]
    · obtain ⟨hD, hn⟩ := enter_ok_plain fs he hdots
      simp only [hdots, if_false, hn, hD]

theorem resolvesToDir_dot (fs : FS) (hc : fs.node fs.cwd = some Node.dir) :
    fs.ResolvesToDir ".".toList fs.cwd := by
  refine ⟨by decide, hc, ?_⟩
  have h1 : components ".".toList = [dot] := by decide
  have h2 : fs.start ".".toList = fs.cwd := rfl
  rw [h1, h2]
  simp only [FS.walk, FS.enter, if_true, hc]

/-- What a successful `lookup` says about the path. -/
theorem lookup_ok_cases (fs : FS) {d : CString} {L : Loc} {nd : Node}
    (h : fs.lookup d = Except.ok (L, nd)) :
    (nd = Node.dir ∧ fs.ResolvesToDir d L) ∨
    (∃ (c : CString) (D : Loc) (n : Name), nd = Node.file c ∧ L = n :: D ∧
      fs.ParentIs d D n ∧ fs.node (n :: D) = some (Node.file c)) := by
  unfold FS.lookup at h
  by_cases h1 : d = []
  · simp only [h1, if_true] at h; cases h
  · by_cases h2 : fs.node (fs.start d) = some Node.dir
    · simp only [h1, if_false, h2, ne_eq, not_true_eq_false] at h
      cases hr : (components d).reverse with
      | nil =>
        rw [hr] at h
        simp only [Except.ok.injEq, Prod.mk.injEq] at h
        left
        refine ⟨h.2.symm, h1, h2, ?_⟩
        have : components d = [] := by simpa using hr
        rw [this, ← h.1]; rfl
      | cons last rb =>
        rw [hr] at h
        have hcomp : components d = rb.reverse ++ [last] := by
          have := congrArg List.reverse hr
          simpa using this
        simp only at h
        cases hw : fs.walk (fs.start d) rb.reverse with
        | error e => rw [hw] at h; cases h
        | ok parent =>
          rw [hw] at h
          simp only at h
          by_cases hdots : last = dot ∨ last = dotdot
          · simp only [hdots, if_true] at h
            cases he : fs.enter parent last with
            | error e => rw [he] at h; cases h
            | ok l =>
              rw [he] at h
              simp only [Except.ok.injEq, Prod.mk.injEq] at h
              left
              refine ⟨h.2.symm, h1, h2, ?_⟩
              rw [hcomp, walk_append, hw]
              simp only [FS.walk, he, h.1]
          · simp only [hdots, if_false] at h
            have hd1 : last ≠ dot := fun x => hdots (Or.inl x)
            have hd2 : last ≠ dotdot := fun x => hdots (Or.inr x)
            cases hn : fs.node (last :: parent) with
            | none => rw [hn] at h; cases h
            | some x =>
              rw [hn] at h
              cases x with
              | dir =>
                simp only [Except.ok.injEq, Prod.mk.injEq] at h
                left
                refine ⟨h.2.symm, h1, h2, ?_⟩
                rw [hcomp, walk_append, hw, ← h.1]
                simp only [FS.walk, enter_plain fs parent hd1 hd2, hn]
              | file c =>
                simp only at h
                by_cases hl : d.getLast? = some '/'
                · simp only [hl, if_true] at h; cases h
                · simp only [hl, if_false, Except.ok.injEq, Prod.mk.injEq] at h
                  right
                  exact ⟨c, parent, last, h.2.symm, h.1.symm,
                    ⟨h1, hl, h2, hd1, hd2, rb.reverse, hcomp, hw⟩, hn⟩
    · simp only [h1, if_false, h2, ne_eq, not_false_eq_true, if_true] at h; cases h

theorem resolvesToDir_of_lookup (fs : FS) {d : CString} {L : Loc}
    (h : fs.lookup d = Except.ok (L, Node.dir)) : fs.ResolvesToDir d L := by
  rcases lookup_ok_cases fs h with ⟨_, h2⟩ | ⟨c, D, n, h1, _⟩
  · exact h2
  · cases h1

/-! ## Lemmas on the file loop -/

/-- One round of the loop on a file name whose parent directory exists. -/
theorem prepareFiles_cons {Img : Type} (f : CString) (rest : List CString) (w : World Img)
    {D : Loc} {n : Name} (h : w.fs.ParentIs f D n) (hnd : w.fs.node (n :: D) ≠ some Node.dir) :
    prepareFiles (f :: rest) w =
      prepareFiles rest
        { fs := w.fs.ensureFile (n :: D),
          trace := w.trace ++
            (if w.fs.node (n :: D) = none then
              [Event.openRead f false, Event.openWrite f true]
            else [Event.openRead f true]) } := by
  have hl := lookup_of_parentIs w.fs h
  have ho := openTrunc_of_parentIs w.fs h
  cases hn : w.fs.node (n :: D) with
  | none =>
    rw [hn] at hl ho
    simp only [prepareFiles, fileExists, createFile, World.log, hl, ho, if_true,
      Bool.false_eq_true, if_false, List.append_assoc, List.singleton_append, FS.ensureFile, hn]
  | some x =>
    cases x with
    | dir => exact absurd hn hnd
    | file c =>
      rw [hn] at hl
      simp only [prepareFiles, fileExists, World.log, hl, if_true, reduceCtorEq, if_false,
        FS.ensureFile, hn]

theorem ensureFile_cwd (fs : FS) (l : Loc) : (fs.ensureFile l).cwd = fs.cwd := by
  unfold FS.ensureFile
  split <;> rfl

theorem ensureFile_node (fs : FS) (l m : Loc) :
    (fs.ensureFile l).node m =
      if m = l ∧ fs.node m = none then some (Node.file []) else fs.node m := by
  unfold FS.ensureFile
  by_cases h : fs.node l = none
  · by_cases e : m = l
    · subst e; simp [FS.set, h]
    · simp [FS.set, h, e]
  · by_cases e : m = l
    · subst e; simp [h]
    · simp [h, e]

theorem ensureFile_keeps_dirs (fs : FS) (l : Loc) :
    ∀ m, fs.node m = some Node.dir → (fs.ensureFile l).node m = some Node.dir := by
  intro m hm
  rw [ensureFile_node]
  simp [hm]

theorem set_dir_keeps_dirs (fs : FS) (l : Loc) :
    ∀ m, fs.node m = some Node.dir → (fs.set l Node.dir).node m = some Node.dir := by
  intro m hm
  by_cases e : m = l
  · simp only [FS.set, e, if_true]
  · simp only [FS.set, e, if_false, hm]

theorem ensureFile_three (fs : FS) (A B C : Loc) (hAB : B ≠ A) (hAC : C ≠ A) (hBC : C ≠ B)
    (l : Loc) :
    (((fs.ensureFile A).ensureFile B).ensureFile C).node l =
      if (l = A ∨ l = B ∨ l = C) ∧ fs.node l = none then some (Node.file []) else fs.node l := by
  simp only [ensureFile_node]
  by_cases e1 : l = A
  · subst e1
    by_cases h : fs.node l = none <;> simp [h, hAB.symm, hAC.symm]
  · by_cases e2 : l = B
    · subst e2
      by_cases h : fs.node l = none <;> simp [h, hAB, hBC.symm]
    · by_cases e3 : l = C
      · subst e3
        by_cases h : fs.node l = none <;> simp [h, hAC, hBC]
      · simp [e1, e2, e3]

theorem isTimestamp_plain {ts : CString} (h : isTimestamp ts = true) : plainName ts = true := by
  simp only [isTimestamp, Bool.and_eq_true, decide_eq_true_eq, List.all_eq_true] at h
  obtain ⟨⟨⟨h1, h2⟩, h3⟩, h4⟩ := h
  have hne : ts ≠ [] := by
    intro e; rw [e] at h1; cases h1
  have hsplit : ts = ts.take 8 ++ '_' :: ts.drop 9 := by
    have h8 : 8 < ts.length := by omega
    have e1 : ts.drop 8 = ts[8] :: ts.drop 9 := List.drop_eq_getElem_cons h8
    have e2 : ts[8] = '_' := by
      have := List.getElem?_eq_getElem h8
      rw [this] at h3
      injection h3
    conv_lhs => rw [← List.take_append_drop 8 ts, e1, e2]
  have hno : '/' ∉ ts := by
    intro hm
    rw [hsplit] at hm
    rcases List.mem_append.mp hm with hm | hm
    · have := h2 _ hm
      revert this; decide
    · rcases List.mem_cons.mp hm with hm | hm
      · revert hm; decide
      · have := h4 _ hm
        revert this; decide
  have hd1 : ts ≠ dot := by
    intro e; rw [e] at h1; revert h1; decide
  have hd2 : ts ≠ dotdot := by
    intro e; rw [e] at h1; revert h1; decide
  simp [plainName, hne, hno, hd1, hd2]

theorem set_node (fs : FS) (l m : Loc) (x : Node) :
    (fs.set l x).node m = if m = l then some x else fs.node m := rfl

theorem set_cwd (fs : FS) (l : Loc) (x : Node) : (fs.set l x).cwd = fs.cwd := rfl

theorem wellFormed_absent (fs : FS) (hwf : fs.WellFormed) {l : Loc}
    (h : fs.node l ≠ some Node.dir) (n : Name) : fs.node (n :: l) = none := by
  by_contra hc
  exact h (hwf n l hc)

theorem cons_cons_ne (a b : Name) (l : Loc) : a :: b :: l ≠ l := by
  intro h
  have := congrArg List.length h
  simp only [List.length_cons] at this
  omega

/-- A `mkdir` on a path that runs through a regular file fails with `ENOTDIR`. -/
theorem mkdir_under_file (fs : FS) {q : CString} {D : Loc} {n : Name} {c : CString}
    (h : fs.ParentIs q D n) (hn : fs.node (n :: D) = some (Node.file c)) (r : CString)
    (hr : components r ≠ []) :
    fs.mkdir (q ++ '/' :: r) = (MkdirResult.fail Errno.ENOTDIR, fs) := by
  obtain ⟨h1, _, h3, h4, h5, before, h6, h7⟩ := h
  rcases List.eq_nil_or_concat (components r) with hnil | ⟨r1, z, hz⟩
  · exact absurd hnil hr
  · rw [List.concat_eq_append] at hz
    have hcomp : (components (q ++ '/' :: r)).reverse = z :: (before ++ [n] ++ r1).reverse := by
      rw [components_append_slash, h6, hz]
      simp
    have hwalk : fs.walk (fs.start q) (before ++ [n] ++ r1) = Except.error Errno.ENOTDIR := by
      rw [List.append_assoc, walk_append, h7]
      simp only [List.singleton_append, FS.walk, enter_plain fs D h4 h5, hn]
    unfold FS.mkdir
    simp only [List.append_eq_nil, h1, false_and, if_false, start_append fs h1, h3, ne_eq,
      not_true_eq_false, hcomp, List.reverse_reverse, hwalk]

/-- The file loop on the three names below an existing directory. -/
theorem prepareFiles_run {Img : Type} (w : World Img) (d : CString) (D : Loc)
    (hR : w.fs.ResolvesToDir d D)
    (hK : w.fs.node ("KeyFrameTrajectory.txt".toList :: D) ≠ some Node.dir)
    (hI : w.fs.node ("images.txt".toList :: D) ≠ some Node.dir)
    (hP : w.fs.node ("points3D.txt".toList :: D) ≠ some Node.dir) :
    prepareFiles (filenames d) w =
      (true,
        { fs := ((w.fs.ensureFile ("KeyFrameTrajectory.txt".toList :: D)).ensureFile
            ("images.txt".toList :: D)).ensureFile ("points3D.txt".toList :: D),
          trace := w.trace ++
            (if w.fs.node ("KeyFrameTrajectory.txt".toList :: D) = none then
              [Event.openRead (d ++ "/KeyFrameTrajectory.txt".toList) false,
               Event.openWrite (d ++ "/KeyFrameTrajectory.txt".toList) true]
             else [Event.openRead (d ++ "/KeyFrameTrajectory.txt".toList) true]) ++
            (if w.fs.node ("images.txt".toList :: D) = none then
              [Event.openRead (d ++ "/images.txt".toList) false,
               Event.openWrite (d ++ "/images.txt".toList) true]
             else [Event.openRead (d ++ "/images.txt".toList) true]) ++
            (if w.fs.node ("points3D.txt".toList :: D) = none then
              [Event.openRead (d ++ "/points3D.txt".toList) false,
               Event.openWrite (d ++ "/points3D.txt".toList) true]
             else [Event.openRead (d ++ "/points3D.txt".toList) true]) }) := by
  have hKI : ("images.txt".toList :: D) ≠ ("KeyFrameTrajectory.txt".toList :: D) := by
    intro h; injection h with h _; revert h; decide
  have hKP : ("points3D.txt".toList :: D) ≠ ("KeyFrameTrajectory.txt".toList :: D) := by
    intro h; injection h with h _; revert h; decide
  have hIP : ("points3D.txt".toList :: D) ≠ ("images.txt".toList :: D) := by
    intro h; injection h with h _; revert h; decide
  have p1 : w.fs.ParentIs (d ++ "/KeyFrameTrajectory.txt".toList) D
      "KeyFrameTrajectory.txt".toList := parentIs_child w.fs hR (by decide)
  have p2 : w.fs.ParentIs (d ++ "/images.txt".toList) D
      "images.txt".toList := parentIs_child w.fs hR (by decide)
  have p3 : w.fs.ParentIs (d ++ "/points3D.txt".toList) D
      "points3D.txt".toList := parentIs_child w.fs hR (by decide)
  have q2 := parentIs_mono w.fs (w.fs.ensureFile ("KeyFrameTrajectory.txt".toList :: D))
    (ensureFile_cwd _ _) (ensureFile_keeps_dirs _ _) p2
  have q3 := parentIs_mono _
    ((w.fs.ensureFile ("KeyFrameTrajectory.txt".toList :: D)).ensureFile
      ("images.txt".toList :: D))
    (ensureFile_cwd _ _) (ensureFile_keeps_dirs _ _)
    (parentIs_mono w.fs (w.fs.ensureFile ("KeyFrameTrajectory.txt".toList :: D))
      (ensureFile_cwd _ _) (ensureFile_keeps_dirs _ _) p3)
  have n2 : (w.fs.ensureFile ("KeyFrameTrajectory.txt".toList :: D)).node
      ("images.txt".toList :: D) = w.fs.node ("images.txt".toList :: D) := by
    rw [ensureFile_node]; simp only [hKI, false_and, if_false]
  have n3 : ((w.fs.ensureFile ("KeyFrameTrajectory.txt".toList :: D)).ensureFile
      ("images.txt".toList :: D)).node ("points3D.txt".toList :: D) =
      w.fs.node ("points3D.txt".toList :: D) := by
    rw [ensureFile_node, ensureFile_node]; simp only [hIP, hKP, false_and, if_false]
  unfold filenames
  rw [prepareFiles_cons _ _ w p1 hK, prepareFiles_cons _ _ _ q2 (by rw [n2]; exact hI),
    prepareFiles_cons _ _ _ q3 (by rw [n3]; exact hP)]
  simp only [prepareFiles, n2, n3]

theorem names_distinct (D : Loc) :
    ("images.txt".toList :: D) ≠ ("KeyFrameTrajectory.txt".toList :: D) ∧
    ("points3D.txt".toList :: D) ≠ ("KeyFrameTrajectory.txt".toList :: D) ∧
    ("points3D.txt".toList :: D) ≠ ("images.txt".toList :: D) := by
  refine ⟨?_, ?_, ?_⟩ <;> (intro h; injection h with h _; revert h; decide)

/-! ## The preparation steps in a fresh working directory -/

theorem tryInOrder_two {Img : Type} (w : World Img) (a b : CString) (fs1 : FS)
    (r : MkdirResult) (hr : r.hardFailure = false)
    (ha : w.fs.mkdir a = (MkdirResult.fail Errno.EEXIST, w.fs)) (hb : w.fs.mkdir b = (r, fs1)) :
    tryInOrder World.mkdir [a, b] w =
      (true, { fs := fs1,
               trace := w.trace ++ [Event.mkdir a (MkdirResult.fail Errno.EEXIST),
                                    Event.mkdir b r] }) := by
  have h0 : (MkdirResult.fail Errno.EEXIST).hardFailure = false := rfl
  simp only [tryInOrder, World.mkdir, ha, hb, hr, h0, Bool.false_eq_true, if_false,
    List.append_assoc, List.singleton_append]

theorem createDirectory_eq {Img : Type} (w : World Img) (d : CString) (r : MkdirResult)
    (fs1 : FS) (h : w.fs.mkdir d = (r, fs1)) :
    createDirectory d w = (r.okOrExists, { fs := fs1, trace := w.trace ++ [Event.mkdir d r] }) := by
  simp only [createDirectory, World.mkdir, h]

/-- The three directory steps when `dataset` is missing from the working directory. -/
theorem fresh_directories (fs : FS) (ts : CString) (hwf : fs.WellFormed)
    (hcwd : fs.node fs.cwd = some Node.dir)
    (hfresh : fs.node ("dataset".toList :: fs.cwd) = none) (hts : plainName ts = true) :
    fs.mkdir ".".toList = (MkdirResult.fail Errno.EEXIST, fs) ∧
    fs.mkdir "./dataset".toList = (MkdirResult.ok, fs.set ("dataset".toList :: fs.cwd) Node.dir) ∧
    (fs.set ("dataset".toList :: fs.cwd) Node.dir).mkdir ("./dataset/".toList ++ ts) =
      (MkdirResult.ok, (fs.set ("dataset".toList :: fs.cwd) Node.dir).set
        (ts :: "dataset".toList :: fs.cwd) Node.dir) ∧
    ((fs.set ("dataset".toList :: fs.cwd) Node.dir).set
        (ts :: "dataset".toList :: fs.cwd) Node.dir).ResolvesToDir ("./dataset/".toList ++ ts)
      (ts :: "dataset".toList :: fs.cwd) ∧
    ((fs.set ("dataset".toList :: fs.cwd) Node.dir).set
        (ts :: "dataset".toList :: fs.cwd) Node.dir).ResolvesToDir "./dataset".toList
      ("dataset".toList :: fs.cwd) := by
  have r0 := resolvesToDir_dot fs hcwd
  have pD : fs.ParentIs "./dataset".toList fs.cwd "dataset".toList :=
    parentIs_child fs r0 (by decide)
  have m1 := mkdir_of_parentIs fs pD
  rw [hfresh] at m1
  have r1 : (fs.set ("dataset".toList :: fs.cwd) Node.dir).ResolvesToDir "./dataset".toList
      ("dataset".toList :: fs.cwd) :=
    resolvesToDir_of_parentIs _
      (parentIs_mono fs (fs.set ("dataset".toList :: fs.cwd) Node.dir) rfl
        (set_dir_keeps_dirs fs _) pD)
      (by simp [set_node])
  have pT : (fs.set ("dataset".toList :: fs.cwd) Node.dir).ParentIs ("./dataset/".toList ++ ts)
      ("dataset".toList :: fs.cwd) ts := parentIs_child _ r1 hts
  have nT : (fs.set ("dataset".toList :: fs.cwd) Node.dir).node
      (ts :: "dataset".toList :: fs.cwd) = none := by
    rw [set_node, if_neg (List.cons_ne_self _ _)]
    exact wellFormed_absent fs hwf (by rw [hfresh]; simp) ts
  have m2 := mkdir_of_parentIs _ pT
  rw [nT] at m2
  refine ⟨mkdir_of_resolvesToDir fs r0, m1, m2, ?_, ?_⟩
  · exact resolvesToDir_of_parentIs _
      (parentIs_mono (fs.set ("dataset".toList :: fs.cwd) Node.dir)
        ((fs.set ("dataset".toList :: fs.cwd) Node.dir).set
          (ts :: "dataset".toList :: fs.cwd) Node.dir) rfl (set_dir_keeps_dirs _ _) pT)
      (by simp [set_node])
  · exact resolvesToDir_mono (fs.set ("dataset".toList :: fs.cwd) Node.dir)
      ((fs.set ("dataset".toList :: fs.cwd) Node.dir).set
        (ts :: "dataset".toList :: fs.cwd) Node.dir) rfl (set_dir_keeps_dirs _ _) r1

/-- The entries below the session directory after the file loop in a fresh directory. -/
theorem fresh_nodes (fs : FS) (ts : CString) (hwf : fs.WellFormed)
    (hfresh : fs.node ("dataset".toList :: fs.cwd) = none) :
    (∀ n : Name, ((fs.set ("dataset".toList :: fs.cwd) Node.dir).set
        (ts :: "dataset".toList :: fs.cwd) Node.dir).node
          (n :: ts :: "dataset".toList :: fs.cwd) = none) ∧
    (∀ n : Name, ((fs.set ("dataset".toList :: fs.cwd) Node.dir).set
        (ts :: "dataset".toList :: fs.cwd) Node.dir).node (n :: "dataset".toList :: fs.cwd) =
          if n = ts then some Node.dir else none) := by
  have hD : fs.node ("dataset".toList :: fs.cwd) ≠ some Node.dir := by rw [hfresh]; simp
  have hT : ∀ n : Name, fs.node (n :: "dataset".toList :: fs.cwd) = none :=
    fun n => wellFormed_absent fs hwf hD n
  constructor
  · intro n
    rw [set_node, if_neg (List.cons_ne_self _ _), set_node, if_neg (cons_cons_ne _ _ _)]
    exact wellFormed_absent fs hwf (by rw [hT ts]; simp) n
  · intro n
    rw [set_node, set_node, if_neg (List.cons_ne_self _ _), hT n]
    by_cases e : n = ts
    · simp [e]
    · simp [e]

theorem ensureFile_three_mono (fs : FS) (A B C : Loc) :
    (((fs.ensureFile A).ensureFile B).ensureFile C).cwd = fs.cwd ∧
    ∀ l, fs.node l = some Node.dir →
      (((fs.ensureFile A).ensureFile B).ensureFile C).node l = some Node.dir := by
  constructor
  · simp only [ensureFile_cwd]
  · intro l hl
    exact ensureFile_keeps_dirs _ _ _ (ensureFile_keeps_dirs _ _ _ (ensureFile_keeps_dirs _ _ _ hl))

theorem cons_ne_cons_cons (x a b : Name) (L : Loc) : x :: L ≠ a :: b :: L := by
  intro h
  have := congrArg List.length h
  simp only [List.length_cons] at this
  omega

theorem fileOps_session {Msg Img : Type} (env : Env Msg Img) (argv : List CString) :
    ([Event.rosInit, Event.rosStart,
        Event.systemCtor (argv.getD 1 []) (argv.getD 2 []),
        Event.subscribe "/camera/image_raw".toList 1, Event.rosSpin] ++
      env.frames.filterMap (forwarded env.toCvShare env.slam) ++
      [Event.slamShutdown]).filter Event.isFileOp = [] := by
  rw [List.filter_eq_nil_iff]
  intro e he
  simp only [List.mem_append, List.mem_cons, List.mem_singleton, List.not_mem_nil, or_false,
    List.mem_filterMap] at he
  rcases he with (he | ⟨m, _, hm⟩) | he
  · rcases he with he | he | he | he | he <;> subst he <;> simp [Event.isFileOp]
  · unfold forwarded at hm
    cases hc : env.toCvShare m with
    | error e1 => rw [hc] at hm; cases hm
    | ok cv =>
      rw [hc] at hm
      simp only [Option.some.injEq] at hm
      subst hm
      simp [Event.isFileOp]
  · subst he; simp [Event.isFileOp]

theorem main_session_quiet {Msg Img : Type} (env : Env Msg Img) (argv : List CString) :
    ∃ pre : List (Event Img), exportCalls pre = [] ∧ pre.filter Event.isFileOp = [] ∧
      main env 3 argv = shutdownSequence env.exportEffect env.currentTime
        { fs := env.fsAtShutdown, trace := pre } :=
  ⟨_, exportCalls_session env argv, fileOps_session env argv, main_eq env argv⟩

theorem emptyTree_wellFormed : emptyTree.WellFormed := by
  intro n l h
  exact absurd rfl h

/-- The three `mkdir` calls when `./dataset` is a regular file. -/
theorem blocked_directories (fs : FS) (ts : CString) {L : Loc} {c : CString}
    (hfile : fs.lookup "./dataset".toList = Except.ok (L, Node.file c))
    (hts : plainName ts = true) :
    fs.mkdir ".".toList = (MkdirResult.fail Errno.EEXIST, fs) ∧
    fs.mkdir "./dataset".toList = (MkdirResult.fail Errno.EEXIST, fs) ∧
    fs.mkdir ("./dataset/".toList ++ ts) = (MkdirResult.fail Errno.ENOTDIR, fs) := by
  rcases lookup_ok_cases fs hfile with ⟨h, _⟩ | ⟨c1, D, n, _, _, hp, hn⟩
  · cases h
  · have hcwd : fs.node fs.cwd = some Node.dir := hp.2.2.1
    refine ⟨mkdir_of_resolvesToDir fs (resolvesToDir_dot fs hcwd), ?_, ?_⟩
    · rw [mkdir_of_parentIs fs hp, hn]
    · exact mkdir_under_file fs hp hn ts (by rw [components_plain hts]; simp)

/-! ## The attempt sequence read from left to right -/

theorem attemptsFrom_eq (p : CString) :
    ∀ (cs acc : CString), p = acc ++ cs →
      ((List.range' acc.length cs.length).filter
          (fun i => decide (1 ≤ i) && decide (p[i]? = some '/'))).map (fun i => p.take i) ++ [p] =
        attemptsFrom acc cs := by
  intro cs
  induction cs with
  | nil =>
    intro acc h
    simp [attemptsFrom, h]
  | cons c cs ih =>
    intro acc h
    have hp : p = (acc ++ [c]) ++ cs := by rw [h]; simp
    have hget : p[acc.length]? = some c := by
      rw [h, List.getElem?_append_right (le_refl _)]; simp
    have htake : p.take acc.length = acc := by rw [h]; simp
    have ih1 := ih (acc ++ [c]) hp
    simp only [List.length_append, List.length_singleton] at ih1
    simp only [List.length_cons, List.range'_succ, List.filter_cons, hget, attemptsFrom]
    by_cases hc : c = '/'
    · subst hc
      by_cases ha : acc = []
      · subst ha
        simp only [List.length_nil, Nat.le_zero_eq, Nat.succ_ne_zero, decide_False,
          Bool.false_and, Bool.false_eq_true, if_false, ne_eq, not_true_eq_false, and_false]
        exact ih1
      · have hl : 1 ≤ acc.length := by
          cases acc with
          | nil => exact absurd rfl ha
          | cons x xs => simp
        simp only [hl, decide_True, Bool.and_self, if_true, List.map_cons, htake,
          List.cons_append, ne_eq, ha, not_false_eq_true, and_self]
        exact congrArg _ ih1
    · have hc2 : ¬ (c = '/' ∧ acc ≠ []) := fun x => hc x.1
      simp only [Option.some.injEq, hc, decide_False, Bool.and_false, Bool.false_eq_true,
        if_false, hc2]
      exact ih1

theorem attemptSequence_eq_attemptsFrom (p : CString) :
    attemptSequence p = attemptsFrom [] p := by
  have h := attemptsFrom_eq p p [] rfl
  simp only [List.length_nil] at h
  rw [← h]
  unfold attemptSequence separatorPrefixes
  rw [List.range_eq_range']

theorem attemptsFrom_noslash (s : CString) (hs : '/' ∉ s) :
    ∀ acc : CString, attemptsFrom acc s = [acc ++ s] := by
  induction s with
  | nil => intro acc; simp [attemptsFrom]
  | cons c cs ih =>
    intro acc
    have hc : c ≠ '/' := by
      intro h; apply hs; rw [h]; exact List.mem_cons_self _ _
    have hcs : '/' ∉ cs := fun h => hs (List.mem_cons_of_mem _ h)
    simp [attemptsFrom, hc, ih hcs]

theorem attemptsFrom_segment (s r : CString) (hs : '/' ∉ s) :
    ∀ acc : CString, acc ++ s ≠ [] →
      attemptsFrom acc (s ++ '/' :: r) = (acc ++ s) :: attemptsFrom (acc ++ s ++ ['/']) r := by
  induction s with
  | nil =>
    intro acc h
    have ha : acc ≠ [] := by simpa using h
    simp [attemptsFrom, ha]
  | cons c cs ih =>
    intro acc _
    have hc : c ≠ '/' := by
      intro h; apply hs; rw [h]; exact List.mem_cons_self _ _
    have hcs : '/' ∉ cs := fun h => hs (List.mem_cons_of_mem _ h)
    have := ih hcs (acc ++ [c]) (by simp)
    have e : attemptsFrom acc ((c :: cs) ++ '/' :: r) =
        attemptsFrom (acc ++ [c]) (cs ++ '/' :: r) := by
      show attemptsFrom acc (c :: (cs ++ '/' :: r)) = _
      simp only [attemptsFrom, hc, false_and, if_false]
    rw [e, this]
    simp

theorem attemptsFrom_joinPath :
    ∀ (segs : List Name), segs ≠ [] → (∀ s ∈ segs, plainName s = true) →
      ∀ acc : CString, attemptsFrom acc (joinPath segs) = pathChain acc segs := by
  intro segs
  induction segs with
  | nil => intro h; exact absurd rfl h
  | cons s rest ih =>
    intro _ hp acc
    obtain ⟨h1, h2, _, _⟩ := plainName_spec (hp s (List.mem_cons_self _ _))
    cases rest with
    | nil => simp [joinPath, pathChain, attemptsFrom_noslash s h2]
    | cons t rest =>
      have hne : acc ++ s ≠ [] := by simp [h1]
      simp only [joinPath, pathChain]
      rw [attemptsFrom_segment s _ h2 acc hne,
        ih (by simp) (fun x hx => hp x (List.mem_cons_of_mem _ hx)) (acc ++ s ++ ['/'])]
      simp [pathChain]

theorem pathChain_eq_map :
    ∀ (segs : List Name) (acc : CString),
      pathChain acc segs =
        (List.range segs.length).map (fun k => acc ++ joinPath (segs.take (k + 1))) := by
  intro segs
  induction segs with
  | nil => intro acc; rfl
  | cons s rest ih =>
    intro acc
    rw [pathChain, ih, List.length_cons, List.range_succ_eq_map, List.map_cons, List.map_map]
    congr 1
    apply List.map_congr_left
    intro k hk
    have hk : k < rest.length := List.mem_range.mp hk
    cases rest with
    | nil => simp at hk
    | cons t rest =>
      simp [joinPath]

/-! ## Creating a chain of directories -/

theorem withDirs_cwd : ∀ (segs : List Name) (fs : FS) (D : Loc),
    (fs.withDirs D segs).cwd = fs.cwd := by
  intro segs
  induction segs with
  | nil => intro fs D; rfl
  | cons s rest ih => intro fs D; simp only [FS.withDirs, ih, set_cwd]

theorem withDirs_keeps_dirs : ∀ (segs : List Name) (fs : FS) (D : Loc) (l : Loc),
    fs.node l = some Node.dir → (fs.withDirs D segs).node l = some Node.dir := by
  intro segs
  induction segs with
  | nil => intro fs D l h; exact h
  | cons s rest ih =>
    intro fs D l h
    exact ih _ _ l (set_dir_keeps_dirs fs _ l h)

theorem wellFormed_set_dir (fs : FS) (hwf : fs.WellFormed) {D : Loc}
    (hD : fs.node D = some Node.dir) (s : Name) : (fs.set (s :: D) Node.dir).WellFormed := by
  intro n l h
  by_cases e : n :: l = s :: D
  · injection e with _ e2
    rw [e2]
    exact set_dir_keeps_dirs fs _ D hD
  · rw [set_node, if_neg e] at h
    exact set_dir_keeps_dirs fs _ l (hwf n l h)

theorem chain_run {Img : Type} :
    ∀ (segs : List Name) (acc : CString) (D : Loc) (fs : FS) (tr : List (Event Img)),
      (∀ s ∈ segs, plainName s = true) → fs.WellFormed → fs.node D = some Node.dir →
      (∀ n, plainName n = true → fs.ParentIs (acc ++ n) D n) →
      (∀ s, segs.head? = some s → fs.node (s :: D) = none) →
      tryInOrder World.mkdir (pathChain acc segs) (World.mk fs tr) =
        (true, World.mk (fs.withDirs D segs)
          (tr ++ (pathChain acc segs).map (fun p => Event.mkdir p MkdirResult.ok))) ∧
      ∀ k, k < segs.length →
        (fs.withDirs D segs).ResolvesToDir (acc ++ joinPath (segs.take (k + 1)))
          ((segs.take (k + 1)).reverse ++ D) := by
  intro segs
  induction segs with
  | nil =>
    intro acc D fs tr _ _ _ _ _
    refine ⟨by simp [pathChain, tryInOrder, FS.withDirs], ?_⟩
    intro k hk
    simp at hk
  | cons s rest ih =>
    intro acc D fs tr hp hwf hD hbase hfresh
    have hps := hp s (List.mem_cons_self _ _)
    have P := hbase s hps
    have hn : fs.node (s :: D) = none := hfresh s rfl
    have m := mkdir_of_parentIs fs P
    rw [hn] at m
    have R : (fs.set (s :: D) Node.dir).ResolvesToDir (acc ++ s) (s :: D) :=
      resolvesToDir_of_parentIs _
        (parentIs_mono fs (fs.set (s :: D) Node.dir) rfl (set_dir_keeps_dirs fs _) P)
        (by simp [set_node])
    have base1 : ∀ n, plainName n = true →
        (fs.set (s :: D) Node.dir).ParentIs ((acc ++ s ++ ['/']) ++ n) (s :: D) n := by
      intro n hn1
      have := parentIs_child _ R hn1
      simpa using this
    have fresh1 : ∀ t, rest.head? = some t →
        (fs.set (s :: D) Node.dir).node (t :: s :: D) = none := by
      intro t _
      rw [set_node, if_neg (List.cons_ne_self _ _)]
      exact wellFormed_absent fs hwf (by rw [hn]; simp) t
    obtain ⟨ih1, ih2⟩ := ih (acc ++ s ++ ['/']) (s :: D) (fs.set (s :: D) Node.dir)
      (tr ++ [Event.mkdir (acc ++ s) MkdirResult.ok])
      (fun x hx => hp x (List.mem_cons_of_mem _ hx)) (wellFormed_set_dir fs hwf hD s)
      (by simp [set_node]) base1 fresh1
    constructor
    · have h0 : MkdirResult.ok.hardFailure = false := rfl
      simp only [pathChain, tryInOrder, World.mkdir, m, h0, Bool.false_eq_true, if_false,
        FS.withDirs, List.map_cons]
      rw [ih1]
      simp only [List.append_assoc, List.singleton_append]
    · intro k hk
      cases k with
      | zero =>
        have := resolvesToDir_mono (fs.set (s :: D) Node.dir)
          ((fs.set (s :: D) Node.dir).withDirs (s :: D) rest) (withDirs_cwd _ _ _)
          (withDirs_keeps_dirs _ _ _) R
        simpa [joinPath, FS.withDirs] using this
      | succ k =>
        have hk1 : k < rest.length := by simpa using hk
        have := ih2 k hk1
        cases rest with
        | nil => simp at hk1
        | cons t r =>
          simpa [joinPath, FS.withDirs] using this

theorem tryInOrder_all_exist {Img : Type} (fs : FS) :
    ∀ (paths : List CString) (tr : List (Event Img)),
      (∀ p ∈ paths, ∃ L, fs.ResolvesToDir p L) →
      tryInOrder World.mkdir paths (World.mk fs tr) =
        (true, World.mk fs
          (tr ++ paths.map (fun p => Event.mkdir p (MkdirResult.fail Errno.EEXIST)))) := by
  intro paths
  induction paths with
  | nil => intro tr _; simp [tryInOrder]
  | cons p rest ih =>
    intro tr h
    obtain ⟨L, hL⟩ := h p (List.mem_cons_self _ _)
    have m := mkdir_of_resolvesToDir fs hL
    have h0 : (MkdirResult.fail Errno.EEXIST).hardFailure = false := rfl
    simp only [tryInOrder, World.mkdir, m, h0, Bool.false_eq_true, if_false,
      ih _ (fun q hq => h q (List.mem_cons_of_mem _ hq)), List.map_cons, List.append_assoc,
      List.singleton_append]

/-! ## A regular file in the way -/

theorem splitAux_eq_nil (x : CString) :
    ∀ acc : CString, splitAux x acc = [] → acc = [] ∧ ∀ c ∈ x, c = '/' := by
  induction x with
  | nil =>
    intro acc h
    by_cases ha : acc = []
    · exact ⟨ha, by simp⟩
    · simp [splitAux, ha] at h
  | cons c cs ih =>
    intro acc h
    by_cases hc : c = '/'
    · by_cases ha : acc = []
      · simp only [splitAux, hc, if_true, ha] at h
        obtain ⟨_, h2⟩ := ih [] h
        refine ⟨ha, ?_⟩
        intro x hx
        rcases List.mem_cons.mp hx with hx | hx
        · rw [hx, hc]
        · exact h2 x hx
      · simp [splitAux, hc, ha] at h
    · simp only [splitAux, hc, if_false] at h
      obtain ⟨h1, _⟩ := ih (c :: acc) h
      cases h1

theorem components_eq_nil {x : CString} (h : components x = []) : ∀ c ∈ x, c = '/' :=
  (splitAux_eq_nil x [] h).2

theorem components_snoc_slash (a : CString) : components (a ++ ['/']) = components a := by
  have := components_append_slash a []
  simpa [components, splitAux] using this

theorem components_cons_slash (a : CString) : components ('/' :: a) = components a := by
  simp [components, splitAux]

theorem walk_prefix_ok (fs : FS) {xs ys : List Name} {cur D : Loc}
    (h : fs.walk cur (xs ++ ys) = Except.ok D) : ∃ D1, fs.walk cur xs = Except.ok D1 := by
  rw [walk_append] at h
  cases hw : fs.walk cur xs with
  | error e => rw [hw] at h; cases h
  | ok D1 => exact ⟨D1, rfl⟩

/-- Below a path that names a file, every shorter separator prefix names a directory. -/
theorem mkdir_before_file (fs : FS) {q d rest : CString} {D : Loc} {n : Name}
    (hq : fs.ParentIs q D n) (hsplit : q = d ++ '/' :: rest) (hd : d ≠ []) :
    fs.mkdir d = (MkdirResult.fail Errno.EEXIST, fs) := by
  obtain ⟨_, h2, h3, _, _, before, h6, h7⟩ := hq
  have hrest : components rest ≠ [] := by
    intro hnil
    apply h2
    have hall := components_eq_nil hnil
    rw [hsplit, List.getLast?_append_of_ne_nil _ (List.cons_ne_nil _ _)]
    cases hl : ('/' :: rest).getLast? with
    | none => simp at hl
    | some x =>
      have hx := List.mem_of_getLast?_eq_some hl
      rcases List.mem_cons.mp hx with hx | hx
      · rw [hx]
      · rw [hall x hx]
  rcases List.eq_nil_or_concat (components rest) with hnil | ⟨r1, z, hz⟩
  · exact absurd hnil hrest
  · rw [List.concat_eq_append] at hz
    have hc : before ++ [n] = (components d ++ r1) ++ [z] := by
      rw [← h6, hsplit, components_append_slash, hz, List.append_assoc]
    have hb : before = components d ++ r1 := (List.append_inj' hc rfl).1
    rw [hb, hsplit, start_append fs hd] at h7
    obtain ⟨D1, hD1⟩ := walk_prefix_ok fs h7
    rw [hsplit, start_append fs hd] at h3
    exact mkdir_of_resolvesToDir fs ⟨hd, h3, hD1⟩

theorem mkdir_congr (fs : FS) {p1 p2 : CString} (h1 : p1 ≠ []) (h2 : p2 ≠ [])
    (hs : fs.start p1 = fs.start p2) (hc : components p1 = components p2) :
    fs.mkdir p1 = fs.mkdir p2 := by
  unfold FS.mkdir
  simp only [h1, h2, if_false, hs, hc]

theorem attemptsFrom_ne_nil : ∀ (x acc : CString), attemptsFrom acc x ≠ [] := by
  intro x
  induction x with
  | nil => intro acc; simp [attemptsFrom]
  | cons c cs ih =>
    intro acc
    simp only [attemptsFrom]
    split
    · simp
    · exact ih _

theorem attemptsFrom_append : ∀ (x y acc : CString),
    attemptsFrom acc (x ++ y) = (attemptsFrom acc x).dropLast ++ attemptsFrom (acc ++ x) y := by
  intro x
  induction x with
  | nil => intro y acc; simp [attemptsFrom]
  | cons c cs ih =>
    intro y acc
    have e : acc ++ c :: cs = acc ++ [c] ++ cs := by simp
    rw [List.cons_append]
    simp only [attemptsFrom]
    split
    · rw [ih, List.dropLast_cons_of_ne_nil (attemptsFrom_ne_nil _ _), e]
      rfl
    · rw [ih, e]

theorem attemptsFrom_dropLast_mem : ∀ (x acc d : CString),
    d ∈ (attemptsFrom acc x).dropLast → d ≠ [] ∧ ∃ rest, acc ++ x = d ++ '/' :: rest := by
  intro x
  induction x with
  | nil => intro acc d h; simp [attemptsFrom] at h
  | cons c cs ih =>
    intro acc d h
    have e : acc ++ c :: cs = acc ++ [c] ++ cs := by simp
    simp only [attemptsFrom] at h
    split at h
    · rename_i hc
      rw [List.dropLast_cons_of_ne_nil (attemptsFrom_ne_nil _ _)] at h
      rcases List.mem_cons.mp h with h | h
      · subst h
        exact ⟨hc.2, cs, by rw [hc.1]⟩
      · rw [e]; exact ih _ _ h
    · rw [e]; exact ih _ _ h

theorem attemptsFrom_head : ∀ (cs acc : CString), acc ≠ [] →
    ∃ (a : CString) (tl : List CString) (y : CString),
      attemptsFrom acc cs = (acc ++ a) :: tl ∧ cs = a ++ y := by
  intro cs
  induction cs with
  | nil => intro acc _; exact ⟨[], [], [], by simp [attemptsFrom], rfl⟩
  | cons c cs ih =>
    intro acc ha
    by_cases hc : c = '/'
    · subst hc
      exact ⟨[], attemptsFrom (acc ++ ['/']) cs, '/' :: cs, by simp [attemptsFrom, ha], rfl⟩
    · obtain ⟨a, tl, y, h1, h2⟩ := ih (acc ++ [c]) (by simp)
      refine ⟨c :: a, tl, y, ?_, by rw [h2]; rfl⟩
      simp only [attemptsFrom, hc, false_and, if_false, h1]
      simp

/-- After a prefix `q`, the attempts first repeat `q` with separators only, then reach a
path with a component below `q`. -/
theorem attemptsFrom_after (q : CString) :
    ∀ (r x0 : CString), components x0 = [] → components r ≠ [] →
      ∃ (preB : List CString) (d : CString) (tl : List CString),
        attemptsFrom (q ++ '/' :: x0) r = preB ++ d :: tl ∧
        (∀ e ∈ preB, ∃ x, e = q ++ '/' :: x ∧ components x = []) ∧
        ∃ x y, x0 ++ r = x ++ y ∧ components x ≠ [] ∧ d = q ++ '/' :: x := by
  intro r
  induction r with
  | nil => intro x0 _ h; exact absurd rfl h
  | cons c cs ih =>
    intro x0 hx0 hr
    by_cases hc : c = '/'
    · subst hc
      rw [components_cons_slash] at hr
      obtain ⟨preB, d, tl, h1, h2, x, y, h3, h4, h5⟩ :=
        ih (x0 ++ ['/']) (by rw [components_snoc_slash]; exact hx0) hr
      refine ⟨(q ++ '/' :: x0) :: preB, d, tl, ?_, ?_, x, y, ?_, h4, h5⟩
      · simp only [attemptsFrom, true_and, ne_eq, List.append_eq_nil, reduceCtorEq, and_false,
          not_false_eq_true, if_true, List.cons_append]
        rw [← h1]
        simp
      · intro e he
        rcases List.mem_cons.mp he with he | he
        · exact ⟨x0, he, hx0⟩
        · exact h2 e he
      · rw [← h3]; simp
    · obtain ⟨a, tl, y, h1, h2⟩ := attemptsFrom_head cs (q ++ '/' :: x0 ++ [c]) (by simp)
      refine ⟨[], q ++ '/' :: (x0 ++ c :: a), tl, ?_, by simp, x0 ++ c :: a, y, ?_, ?_, rfl⟩
      · simp only [attemptsFrom, hc, false_and, if_false, List.nil_append]
        rw [h1]
        simp
      · rw [h2]; simp
      · intro hnil
        exact hc (components_eq_nil hnil c (by simp))

theorem tryInOrder_stop {Img : Type} (fs : FS) :
    ∀ (pre : List CString) (d : CString) (tl : List CString) (tr : List (Event Img)),
      (∀ e ∈ pre, fs.mkdir e = (MkdirResult.fail Errno.EEXIST, fs)) →
      fs.mkdir d = (MkdirResult.fail Errno.ENOTDIR, fs) →
      tryInOrder World.mkdir (pre ++ d :: tl) (World.mk fs tr) =
        (false, World.mk fs
          (tr ++ pre.map (fun p => Event.mkdir p (MkdirResult.fail Errno.EEXIST)) ++
            [Event.mkdir d (MkdirResult.fail Errno.ENOTDIR)])) := by
  intro pre
  induction pre with
  | nil =>
    intro d tl tr _ hd
    have h0 : (MkdirResult.fail Errno.ENOTDIR).hardFailure = true := rfl
    simp only [List.nil_append, tryInOrder, World.mkdir, hd, h0, if_true, List.map_nil,
      List.append_nil]
  | cons p rest ih =>
    intro d tl tr hpre hd
    have m := hpre p (List.mem_cons_self _ _)
    have h0 : (MkdirResult.fail Errno.EEXIST).hardFailure = false := rfl
    rw [List.cons_append]
    simp only [tryInOrder, World.mkdir, m, h0, Bool.false_eq_true, if_false]
    rw [ih d tl _ (fun e he => hpre e (List.mem_cons_of_mem _ he)) hd]
    simp

/-! ## Paths within the length limits -/

theorem cStr_eq {p : CString} (h : NUL ∉ p) : cStr p = p := by
  unfold cStr
  rw [List.takeWhile_eq_self_iff]
  intro c hc
  simp only [ne_eq, decide_eq_true_eq]
  intro e
  exact h (e ▸ hc)

theorem walkBounded_eq (fs : FS) :
    ∀ (cs : List Name) (cur : Loc), (∀ c ∈ cs, c.length ≤ NAME_MAX) →
      fs.walkBounded cur cs = fs.walk cur cs := by
  intro cs
  induction cs with
  | nil => intro cur _; rfl
  | cons c cs ih =>
    intro cur h
    have hc : ¬ NAME_MAX < c.length := Nat.not_lt.mpr (h c (List.mem_cons_self _ _))
    simp only [FS.walkBounded, FS.enterBounded, hc, if_false, FS.walk]
    cases fs.enter cur c with
    | error e => rfl
    | ok l => exact ih l (fun x hx => h x (List.mem_cons_of_mem _ hx))

theorem mkdirBounded_eq (fs : FS) {p : CString} (h1 : p.length < PATH_MAX)
    (h2 : ∀ c ∈ components p, c.length ≤ NAME_MAX) : fs.mkdirBounded p = fs.mkdir p := by
  have hp : ¬ PATH_MAX ≤ p.length := Nat.not_le.mpr h1
  unfold FS.mkdirBounded FS.mkdir
  simp only [hp, if_false]
  cases hr : (components p).reverse with
  | nil => rfl
  | cons last rb =>
    have hcomp : components p = rb.reverse ++ [last] := by
      have := congrArg List.reverse hr
      simpa using this
    have hl : ¬ NAME_MAX < last.length :=
      Nat.not_lt.mpr (h2 last (by rw [hcomp]; simp))
    have hb : ∀ c ∈ rb.reverse, c.length ≤ NAME_MAX := by
      intro c hc
      exact h2 c (by rw [hcomp]; exact List.mem_append_left _ hc)
    simp only [walkBounded_eq fs _ _ hb, hl, if_false]

theorem withinLimits_spec {p : CString} (h : withinLimits p = true) :
    NUL ∉ p ∧ p.length < PATH_MAX ∧ ∀ c ∈ components p, c.length ≤ NAME_MAX := by
  simpa [withinLimits, and_assoc] using h

theorem withinLimits_intro {p : CString} (h1 : NUL ∉ p) (h2 : p.length < PATH_MAX)
    (h3 : ∀ c ∈ components p, c.length ≤ NAME_MAX) : withinLimits p = true := by
  simp only [withinLimits, Bool.and_eq_true, decide_eq_true_eq, List.all_eq_true]
  exact ⟨⟨h1, h2⟩, h3⟩

theorem mkdirC_eq {Img : Type} {p : CString} (h : withinLimits p = true) (w : World Img) :
    World.mkdirC p w = World.mkdir p w := by
  obtain ⟨h1, h2, h3⟩ := withinLimits_spec h
  unfold World.mkdirC World.mkdir
  rw [cStr_eq h1, mkdirBounded_eq w.fs h2 h3]

theorem tryInOrder_congr {σ : Type} (mk1 mk2 : CString → σ → MkdirResult × σ) :
    ∀ (l : List CString) (s : σ), (∀ d ∈ l, ∀ t, mk1 d t = mk2 d t) →
      tryInOrder mk1 l s = tryInOrder mk2 l s := by
  intro l
  induction l with
  | nil => intro s _; rfl
  | cons d ds ih =>
    intro s h
    simp only [tryInOrder, h d (List.mem_cons_self _ _) s]
    split
    · rfl
    · exact ih _ (fun x hx => h x (List.mem_cons_of_mem _ hx))

theorem attemptSequence_mem {p d : CString} (h : d ∈ attemptSequence p) :
    d = p ∨ ∃ rest, p = d ++ '/' :: rest := by
  rw [attemptSequence_eq_attemptsFrom] at h
  have e := attemptsFrom_append p [] []
  simp only [List.append_nil, List.nil_append, attemptsFrom] at e
  rw [e] at h
  rcases List.mem_append.mp h with h | h
  · right
    obtain ⟨_, rest, hr⟩ := attemptsFrom_dropLast_mem p [] d h
    exact ⟨rest, by simpa using hr⟩
  · left
    simpa using h

theorem attemptSequence_within {p : CString} (h : withinLimits p = true) :
    ∀ d ∈ attemptSequence p, withinLimits d = true := by
  intro d hd
  rcases attemptSequence_mem hd with e | ⟨rest, e⟩
  · rw [e]; exact h
  · obtain ⟨h1, h2, h3⟩ := withinLimits_spec h
    apply withinLimits_intro
    · intro hn
      apply h1
      rw [e]
      exact List.mem_append_left _ hn
    · have : p.length = d.length + (rest.length + 1) := by
        rw [e, List.length_append, List.length_cons]
      omega
    · intro c hc
      apply h3
      rw [e, components_append_slash]
      exact List.mem_append_left _ hc

theorem pathMax_lt_npos : PATH_MAX < npos := by decide

/-- Within the limits, the loop run with `World.mkdirC` is the loop run with `World.mkdir`. -/
theorem cdwp_mkdirC_eq {Img : Type} {p : CString} (h : withinLimits p = true) (w : World Img) :
    createDirectoryWithParents World.mkdirC p w = createDirectoryWithParents World.mkdir p w := by
  have hlen : p.length < npos := Nat.lt_trans (withinLimits_spec h).2.1 pathMax_lt_npos
  rw [createDirectoryWithParents_eq World.mkdirC p hlen w,
    createDirectoryWithParents_eq World.mkdir p hlen w]
  exact congrArg some (tryInOrder_congr World.mkdirC World.mkdir _ w
    (fun d hd t => mkdirC_eq (attemptSequence_within h d hd) t))

theorem components_joinPath :
    ∀ (segs : List Name), (∀ s ∈ segs, plainName s = true) → components (joinPath segs) = segs := by
  intro segs
  induction segs with
  | nil => intro _; rfl
  | cons s rest ih =>
    intro hp
    have hs := hp s (List.mem_cons_self _ _)
    cases rest with
    | nil => simpa [joinPath] using components_plain hs
    | cons t rest =>
      simp only [joinPath]
      rw [components_append_slash, components_plain hs,
        ih (fun x hx => hp x (List.mem_cons_of_mem _ hx))]
      rfl

theorem nul_not_mem_joinPath :
    ∀ (segs : List Name), (∀ s ∈ segs, NUL ∉ s) → NUL ∉ joinPath segs := by
  intro segs
  induction segs with
  | nil => intro _; simp [joinPath]
  | cons s rest ih =>
    intro hp
    have hs := hp s (List.mem_cons_self _ _)
    cases rest with
    | nil => simpa [joinPath] using hs
    | cons t rest =>
      have hr := ih (fun x hx => hp x (List.mem_cons_of_mem _ hx))
      simp only [joinPath] at hr ⊢
      intro hm
      rcases List.mem_append.mp hm with hm | hm
      · exact hs hm
      · rcases List.mem_cons.mp hm with hm | hm
        · revert hm; decide
        · exact hr hm

/-- With a `mkdir` that knows no length limit: the chain `s1`, `s1/s2`, ... is created in
order, and a second call finds every directory in place. -/
theorem chain_created_without_limits {Img : Type} (w : World Img)
    (segs : List Name) (hne : segs ≠ []) (hplain : ∀ s ∈ segs, plainName s = true)
    (hlen : (joinPath segs).length < npos) (hwf : w.fs.WellFormed)
    (hcwd : w.fs.node w.fs.cwd = some Node.dir)
    (hfresh : ∀ s, segs.head? = some s → w.fs.node (s :: w.fs.cwd) = none) :
    ∃ w1 w2 : World Img,
      createDirectoryWithParents World.mkdir (joinPath segs) w = some (true, w1) ∧
      w1.trace = w.trace ++ (List.range segs.length).map
        (fun k => Event.mkdir (joinPath (segs.take (k + 1))) MkdirResult.ok) ∧
      (∀ k, k < segs.length →
        w1.fs.lookup (joinPath (segs.take (k + 1))) =
          Except.ok ((segs.take (k + 1)).reverse ++ w.fs.cwd, Node.dir)) ∧
      createDirectoryWithParents World.mkdir (joinPath segs) w1 = some (true, w2) ∧
      w2.fs = w1.fs := by
  have hseq : attemptSequence (joinPath segs) = pathChain [] segs := by
    rw [attemptSequence_eq_attemptsFrom, attemptsFrom_joinPath segs hne hplain]
  obtain ⟨h1, h2⟩ := @chain_run Img segs [] w.fs.cwd w.fs w.trace hplain hwf hcwd
    (fun n hn => by simpa using parentIs_root w.fs hcwd hn) hfresh
  have hres : ∀ p ∈ pathChain [] segs, ∃ L, (w.fs.withDirs w.fs.cwd segs).ResolvesToDir p L := by
    intro p hp
    rw [pathChain_eq_map] at hp
    obtain ⟨k, hk, rfl⟩ := List.mem_map.mp hp
    exact ⟨_, h2 k (List.mem_range.mp hk)⟩
  have h3 := @tryInOrder_all_exist Img (w.fs.withDirs w.fs.cwd segs) (pathChain [] segs)
    (w.trace ++ (pathChain [] segs).map (fun p => Event.mkdir p MkdirResult.ok)) hres
  have hrun1 : createDirectoryWithParents World.mkdir (joinPath segs) w =
      some (true, World.mk (w.fs.withDirs w.fs.cwd segs)
        (w.trace ++ (pathChain [] segs).map (fun p => Event.mkdir p MkdirResult.ok))) := by
    rw [createDirectoryWithParents_eq World.mkdir _ hlen, hseq]
    exact congrArg some h1
  have hrun2 := (createDirectoryWithParents_eq World.mkdir _ hlen
    (World.mk (w.fs.withDirs w.fs.cwd segs)
      (w.trace ++ (pathChain [] segs).map (fun p => Event.mkdir p MkdirResult.ok)))).trans
    (congrArg some ((congrArg (fun l => tryInOrder World.mkdir l _) hseq).trans h3))
  refine ⟨_, _, hrun1, ?_, ?_, hrun2, rfl⟩
  · simp only [pathChain_eq_map, List.nil_append, List.map_map]
    rfl
  · intro k hk
    have := lookup_of_resolvesToDir _ (h2 k hk)
    simpa using this

theorem isTimestamp_chars {ts : CString} (h : isTimestamp ts = true) :
    ts.length = 15 ∧ ∀ c ∈ ts, c.isDigit = true ∨ c = '_' := by
  simp only [isTimestamp, Bool.and_eq_true, decide_eq_true_eq, List.all_eq_true] at h
  obtain ⟨⟨⟨h1, h2⟩, h3⟩, h4⟩ := h
  refine ⟨h1, ?_⟩
  have hsplit : ts = ts.take 8 ++ '_' :: ts.drop 9 := by
    have h8 : 8 < ts.length := by omega
    have e1 : ts.drop 8 = ts[8] :: ts.drop 9 := List.drop_eq_getElem_cons h8
    have e2 : ts[8] = '_' := by
      have := List.getElem?_eq_getElem h8
      rw [this] at h3
      injection h3
    conv_lhs => rw [← List.take_append_drop 8 ts, e1, e2]
  intro c hc
  rw [hsplit] at hc
  rcases List.mem_append.mp hc with hc | hc
  · exact Or.inl (h2 c hc)
  · rcases List.mem_cons.mp hc with hc | hc
    · exact Or.inr hc
    · exact Or.inl (h4 c hc)

/-- The paths that `main` passes to `mkdir` are within the limits, so that `World.mkdirC`
and `World.mkdir` are the same call on them. -/
theorem session_paths_within_limits {ts : CString} (h : isTimestamp ts = true) :
    withinLimits ".".toList = true ∧ withinLimits "./dataset".toList = true ∧
    withinLimits ("./dataset/".toList ++ ts) = true := by
  obtain ⟨hl, hc⟩ := isTimestamp_chars h
  refine ⟨by decide, by decide, ?_⟩
  apply withinLimits_intro
  · intro hm
    rcases List.mem_append.mp hm with hm | hm
    · revert hm; decide
    · rcases hc _ hm with h1 | h1
      · revert h1; decide
      · revert h1; decide
  · rw [List.length_append, hl]; decide
  · have e : "./dataset/".toList ++ ts = "./dataset".toList ++ '/' :: ts := rfl
    rw [e, components_child _ (isTimestamp_plain h)]
    intro c hc1
    rcases List.mem_append.mp hc1 with hc1 | hc1
    · have hd : ∀ x ∈ components "./dataset".toList, x.length ≤ NAME_MAX := by decide
      exact hd c hc1
    · simp only [List.mem_singleton] at hc1
      rw [hc1, hl]; decide

/-! ## Claims about the attempt sequence and termination -/

/-- C6: `createDirectoryWithParents(p)` calls `mkdir` on the prefixes `p[0..i)` for the indices
`i ≥ 1` with `p[i] = '/'`, in increasing order, and last on `p` itself: it returns what trying
that list in order returns.  With a recording `mkdir` the log is the whole list when the result
is `true`; when the result is `false` the log ends with the first attempt that failed with an
error other than `EEXIST`, every attempt before it having been tolerated.  No separator prefix
is empty and the list ends with `p`. -/
theorem createDirectoryWithParents_attempts {σ : Type}
    (mkdir : CString → σ → MkdirResult × σ) (p : CString) (hlen : p.length < npos) (s : σ) :
    createDirectoryWithParents mkdir p s = some (tryInOrder mkdir (attemptSequence p) s) ∧
    (∃ (b : Bool) (s1 : σ) (log : List CString),
      createDirectoryWithParents (recording mkdir) p (s, []) = some (b, s1, log) ∧
      createDirectoryWithParents mkdir p s = some (b, s1) ∧
      (b = true → log = attemptSequence p) ∧
      (b = false → ∃ (init : List CString) (d : CString) (rest : List CString) (s2 : σ),
        attemptSequence p = init ++ d :: rest ∧ log = init ++ [d] ∧
        tryInOrder mkdir init s = (true, s2) ∧ (mkdir d s2).1.hardFailure = true)) ∧
    (∀ d ∈ separatorPrefixes p, d ≠ []) ∧
    (attemptSequence p).getLast? = some p := by
  refine ⟨createDirectoryWithParents_eq mkdir p hlen s, ?_, ?_, ?_⟩
  · obtain ⟨h1, h2, h3⟩ := tryInOrder_recording mkdir (attemptSequence p) s []
    refine ⟨(tryInOrder mkdir (attemptSequence p) s).1, (tryInOrder mkdir (attemptSequence p) s).2,
      (tryInOrder (recording mkdir) (attemptSequence p) (s, [])).2.2, ?_, ?_, ?_, ?_⟩
    · rw [createDirectoryWithParents_eq (recording mkdir) p hlen (s, [])]
      rw [← h1, ← h2]
    · exact createDirectoryWithParents_eq mkdir p hlen s
    · intro hb
      rcases h3 with ⟨_, h4⟩ | ⟨h4, _⟩
      · simpa using h4
      · rw [hb] at h4; cases h4
    · intro hb
      rcases h3 with ⟨h4, _⟩ | ⟨_, init, d, rest, s2, h5, h6, h7, h8⟩
      · rw [hb] at h4; cases h4
      · exact ⟨init, d, rest, s2, h5, by simpa using h6, h7, h8⟩
  · intro d hd
    rw [separatorPrefixes_eq] at hd
    simp only [List.mem_map, sepsFrom, List.mem_filter, List.mem_range'_1] at hd
    obtain ⟨i, ⟨⟨h1, h2⟩, h3⟩, rfl⟩ := hd
    intro hnil
    have hlt : i < p.length := by omega
    have : (List.take i p).length = 0 := by rw [hnil]; rfl
    rw [List.length_take] at this
    omega
  · simp [attemptSequence]

/-- Witness for C6 at the path `./dataset`. -/
theorem createDirectoryWithParents_attempts_witness :
    createDirectoryWithParents (fun _ (s : Unit) => (MkdirResult.ok, s)) "./dataset".toList () =
      some (tryInOrder (fun _ (s : Unit) => (MkdirResult.ok, s))
        (attemptSequence "./dataset".toList) ()) :=
  (createDirectoryWithParents_attempts (fun _ (s : Unit) => (MkdirResult.ok, s))
    "./dataset".toList (by decide) ()).1

/-- C10: `createDirectoryWithParents` returns for every string and every behaviour of `mkdir`:
the iteration bound built into the model is never reached and any larger bound gives the same
result.  At every entry of the loop body `pos` differs from `npos` and `pos + 1` does not
wrap; an iteration that continues the loop leaves `pos` strictly larger.  The number of
`mkdir` calls is at most one plus the number of `/` at index `≥ 1`. -/
theorem createDirectoryWithParents_terminates {σ : Type}
    (mkdir : CString → σ → MkdirResult × σ) (p : CString) (hlen : p.length < npos) (s : σ) :
    (∃ r, createDirectoryWithParents mkdir p s = some r) ∧
    (∀ fuel, p.length + 1 ≤ fuel →
      cdwpLoop mkdir p fuel 0 s = createDirectoryWithParents mkdir p s) ∧
    (∀ (pos : Nat) (st : σ), Reaches mkdir p s pos st →
      pos ≠ npos ∧ (pos + 1) % 2 ^ 64 = pos + 1 ∧
      ∀ (pos1 : Nat) (st1 : σ), cdwpBody mkdir p pos st = LoopStep.again pos1 st1 →
        pos < pos1 ∧ pos1 ≠ npos) ∧
    (∃ (b : Bool) (s1 : σ) (log : List CString),
      createDirectoryWithParents (recording mkdir) p (s, []) = some (b, s1, log) ∧
      log.length ≤ 1 + (p.drop 1).count '/') := by
  refine ⟨⟨_, createDirectoryWithParents_eq mkdir p hlen s⟩, ?_, ?_, ?_⟩
  · intro fuel hf
    rw [createDirectoryWithParents_eq mkdir p hlen s, ← separatorPrefixes_eq_attempt p]
    exact cdwpLoop_eq mkdir p hlen fuel 0 s (Nat.zero_le _) (by omega)
  · intro pos st hr
    have hb := reaches_bound mkdir p s hr
    have hnp : npos = 2 ^ 64 - 1 := rfl
    refine ⟨by omega, Nat.mod_eq_of_lt (by omega), ?_⟩
    intro pos1 st1 hbody
    refine ⟨body_again_increases mkdir p hlen hb hbody, ?_⟩
    have := reaches_bound mkdir p s (Reaches.next hr hbody)
    omega
  · obtain ⟨_, _, h3⟩ := tryInOrder_recording mkdir (attemptSequence p) s []
    refine ⟨_, _, _, createDirectoryWithParents_eq (recording mkdir) p hlen (s, []), ?_⟩
    rw [← attemptSequence_length]
    rcases h3 with ⟨_, h4⟩ | ⟨_, init, d, rest, s2, h5, h6, _, _⟩
    · rw [h4]; simp
    · rw [h6, h5]; simp

/-- Witness for C10 at a path with leading, doubled and trailing separators. -/
theorem createDirectoryWithParents_terminates_witness :
    ∃ r, createDirectoryWithParents (fun _ (s : Unit) => (MkdirResult.fail Errno.EEXIST, s))
      "//a//b/".toList () = some r :=
  (createDirectoryWithParents_terminates (fun _ (s : Unit) => (MkdirResult.fail Errno.EEXIST, s))
    "//a//b/".toList (by decide) ()).1

/-! ## Claims about the frame adapter and about `main` -/

/-- C9: when the transport delivers any sequence of messages one at a time to `GrabImage`, no
exception leaves the adapter, the adapter still points to the same engine, the file system is
untouched, and the calls added to the trace are exactly one `TrackMonocular` call, on that
engine with the image and the stamp in seconds, for every message whose conversion succeeds,
in arrival order.  A single message whose conversion throws adds no call at all. -/
theorem grabImage_forwards_converted {Msg Img : Type}
    (toCvShare : Msg → Except CvBridgeException (CvImage Img)) (igb : ImageGrabber)
    (msgs : List Msg) (w : World Img) :
    deliver toCvShare igb msgs w =
      Except.ok (igb, { fs := w.fs,
                        trace := w.trace ++ msgs.filterMap (forwarded toCvShare igb.mpSLAM) }) ∧
    (∀ msg : Msg, igb.GrabImage toCvShare msg w =
      Except.ok (igb, match toCvShare msg with
        | Except.error _ => w
        | Except.ok cv_ptr =>
          { fs := w.fs,
            trace := w.trace ++
              [Event.trackMonocular igb.mpSLAM cv_ptr.image cv_ptr.stamp.toSec] })) := by
  refine ⟨deliver_eq toCvShare msgs igb w, ?_⟩
  intro msg
  unfold ImageGrabber.GrabImage
  cases toCvShare msg <;> rfl

/-- C8: with an argument count other than 3, `main` returns 1 after `ros::init`, `ros::start`
and `ros::shutdown` only: no engine is constructed, nothing is subscribed, no file system
call is made.  With argument count 3, `main` returns, and its result is 0 or -1. -/
theorem main_argument_count {Msg Img : Type} (env : Env Msg Img) (argc : Int)
    (argv : List CString) :
    (argc ≠ 3 → main env argc argv =
      some (1, { fs := env.fsAtStart,
                 trace := [Event.rosInit, Event.rosStart, Event.rosShutdown] })) ∧
    (∃ (code : Int) (w : World Img), main env 3 argv = some (code, w) ∧
      (code = 0 ∨ code = -1)) := by
  constructor
  · intro h
    unfold main
    simp only [ne_eq, h, not_false_eq_true, if_true, World.log, List.cons_append,
      List.nil_append]
  · rw [main_eq, shutdownSequence_eq]
    split
    · exact ⟨_, _, rfl, Or.inr rfl⟩
    · split
      · exact ⟨_, _, rfl, Or.inr rfl⟩
      · split
        · exact ⟨_, _, rfl, Or.inr rfl⟩
        · exact ⟨_, _, rfl, Or.inl rfl⟩

/-- Witness for C8: a run with a single command-line word. -/
theorem main_argument_count_witness :
    (1 : Int) ≠ 3 ∧
    @main Unit Unit
      { slam := 0, frames := [], toCvShare := fun _ => Except.error ⟨[]⟩,
        fsAtStart := { node := fun _ => none, cwd := [] },
        fsAtShutdown := { node := fun _ => none, cwd := [] },
        currentTime := [], exportEffect := fun _ fs => fs } 1 [] =
      some (1, { fs := { node := fun _ => none, cwd := [] },
                 trace := [Event.rosInit, Event.rosStart, Event.rosShutdown] }) :=
  ⟨by decide, (main_argument_count _ 1 []).1 (by decide)⟩

/-- C5: in every run of `main` with argument count 3, whatever the file system at shutdown:
when all preparation steps succeed (`createDirectoryWithParents("./dataset")`,
`createDirectory(directoryName)`, the loop over the three files), `main` returns 0 and the
export calls of the run are `SaveKeyFrameTrajectoryTUM`, `SaveKeyPointsAndMapPoints`,
`SavePointcloud` on the three paths, once each, in this order; when one of them fails, `main`
returns -1 and the run contains no export call. -/
theorem main_exports_after_preparation {Msg Img : Type} (env : Env Msg Img)
    (argv : List CString) :
    ∃ (w0 : World Img) (b1 : Bool) (w1 : World Img) (code : Int) (wEnd : World Img),
      w0.fs = env.fsAtShutdown ∧
      main env 3 argv = shutdownSequence env.exportEffect env.currentTime w0 ∧
      createDirectoryWithParents World.mkdir "./dataset".toList w0 = some (b1, w1) ∧
      main env 3 argv = some (code, wEnd) ∧
      (if (b1 && (createDirectory ("./dataset/".toList ++ env.currentTime) w1).1 &&
            (prepareFiles (filenames ("./dataset/".toList ++ env.currentTime))
              (createDirectory ("./dataset/".toList ++ env.currentTime) w1).2).1) = true
        then code = 0 ∧ exportCalls wEnd.trace =
          [Event.saveKeyFrameTrajectoryTUM
              (("./dataset/".toList ++ env.currentTime) ++ "/KeyFrameTrajectory.txt".toList),
            Event.saveKeyPointsAndMapPoints
              (("./dataset/".toList ++ env.currentTime) ++ "/images.txt".toList),
            Event.savePointcloud
              (("./dataset/".toList ++ env.currentTime) ++ "/points3D.txt".toList)]
        else code = -1 ∧ exportCalls wEnd.trace = []) := by
  obtain ⟨pre, hpre0, hmain⟩ := main_session env argv
  rw [hmain]
  have hfs : ({ fs := env.fsAtShutdown, trace := pre } : World Img).fs = env.fsAtShutdown := rfl
  have hpre1 : exportCalls ({ fs := env.fsAtShutdown, trace := pre } : World Img).trace = [] :=
    hpre0
  generalize ({ fs := env.fsAtShutdown, trace := pre } : World Img) = w0 at hfs hpre1 ⊢
  clear hpre0 hmain
  have hpre0 := hpre1
  have ht1 := exportCalls_tryInOrder [".".toList, "./dataset".toList] w0
  have hc := cdwp_dataset w0
  have hs := shutdownSequence_eq env.exportEffect env.currentTime w0
  generalize tryInOrder World.mkdir [".".toList, "./dataset".toList] w0 = r1 at *
  refine ⟨w0, r1.1, r1.2, ?_⟩
  have ht2 := exportCalls_createDirectory ("./dataset/".toList ++ env.currentTime) r1.2
  have ht3 := exportCalls_prepareFiles (filenames ("./dataset/".toList ++ env.currentTime))
    (createDirectory ("./dataset/".toList ++ env.currentTime) r1.2).2
  generalize createDirectory ("./dataset/".toList ++ env.currentTime) r1.2 = r2 at *
  generalize prepareFiles (filenames ("./dataset/".toList ++ env.currentTime)) r2.2 = r3 at *
  by_cases h1 : r1.1 = false
  · refine ⟨-1, _, hfs, rfl, hc, by rw [hs, if_pos h1], ?_⟩
    simp only [h1, Bool.false_and, Bool.false_eq_true, if_false, true_and, World.log]
    rw [exportCalls_append_of_none _ _ (by simp [Event.isExport]), ht1, hpre0]
  · by_cases h2 : r2.1 = false
    · refine ⟨-1, _, hfs, rfl, hc, by rw [hs, if_neg h1, if_pos h2], ?_⟩
      simp only [h2, Bool.and_false, Bool.false_and, Bool.false_eq_true, if_false, true_and,
        World.log]
      rw [exportCalls_append_of_none _ _ (by simp [Event.isExport]), ht2, ht1, hpre0]
    · by_cases h3 : r3.1 = false
      · refine ⟨-1, _, hfs, rfl, hc, by rw [hs, if_neg h1, if_neg h2, if_pos h3], ?_⟩
        simp only [h3, Bool.and_false, Bool.false_eq_true, if_false, true_and, World.log]
        rw [exportCalls_append_of_none _ _ (by simp [Event.isExport]), ht3, ht2, ht1, hpre0]
      · refine ⟨0, _, hfs, rfl, hc, by rw [hs, if_neg h1, if_neg h2, if_neg h3], ?_⟩
        simp only [Bool.not_eq_false] at h1 h2 h3
        simp only [h1, h2, h3, Bool.and_self, if_true, true_and, World.log, World.export]
        simp only [exportCalls, List.filter_append] at ht3 ht2 ht1 hpre0 ⊢
        rw [ht3, ht2, ht1, hpre0]
        simp [Event.isExport]

/-! ## Claims about the file system -/

/-- C4: the loop over `directoryName + "/KeyFrameTrajectory.txt"`, `"/images.txt"`,
`"/points3D.txt"`, started in any state where `directoryName` names an existing directory and
each of the three entries is either a regular file or missing, runs to its end; afterwards an
entry that was a file is the same file with the same content (only an open for reading was
made on it, never `createFile`), an entry that was missing is a file of length zero, and every
other location of the file system, and the working directory, are as before. -/
theorem prepareFiles_keeps_existing_files {Img : Type} (w : World Img)
    (directoryName : CString) (D : Loc)
    (hdir : w.fs.lookup directoryName = Except.ok (D, Node.dir))
    (hK : w.fs.node ("KeyFrameTrajectory.txt".toList :: D) ≠ some Node.dir)
    (hI : w.fs.node ("images.txt".toList :: D) ≠ some Node.dir)
    (hP : w.fs.node ("points3D.txt".toList :: D) ≠ some Node.dir) :
    ∃ w1 : World Img,
      prepareFiles (filenames directoryName) w = (true, w1) ∧
      w1.fs.cwd = w.fs.cwd ∧
      (∀ l : Loc, w1.fs.node l =
        if (l = "KeyFrameTrajectory.txt".toList :: D ∨ l = "images.txt".toList :: D ∨
            l = "points3D.txt".toList :: D) ∧ w.fs.node l = none
        then some (Node.file []) else w.fs.node l) ∧
      w1.trace = w.trace ++
        (if w.fs.node ("KeyFrameTrajectory.txt".toList :: D) = none then
          [Event.openRead (directoryName ++ "/KeyFrameTrajectory.txt".toList) false,
           Event.openWrite (directoryName ++ "/KeyFrameTrajectory.txt".toList) true]
         else [Event.openRead (directoryName ++ "/KeyFrameTrajectory.txt".toList) true]) ++
        (if w.fs.node ("images.txt".toList :: D) = none then
          [Event.openRead (directoryName ++ "/images.txt".toList) false,
           Event.openWrite (directoryName ++ "/images.txt".toList) true]
         else [Event.openRead (directoryName ++ "/images.txt".toList) true]) ++
        (if w.fs.node ("points3D.txt".toList :: D) = none then
          [Event.openRead (directoryName ++ "/points3D.txt".toList) false,
           Event.openWrite (directoryName ++ "/points3D.txt".toList) true]
         else [Event.openRead (directoryName ++ "/points3D.txt".toList) true]) := by
  have hR := resolvesToDir_of_lookup w.fs hdir
  obtain ⟨hKI, hKP, hIP⟩ := names_distinct D
  rw [prepareFiles_run w directoryName D hR hK hI hP]
  refine ⟨_, rfl, ?_, ?_, rfl⟩
  · simp only [ensureFile_cwd]
  · intro l
    exact ensureFile_three w.fs _ _ _ hKI hKP hIP l

/-- Witness for C4: a directory `out` that already holds `images.txt` with content. -/
theorem prepareFiles_keeps_existing_files_witness :
    ∃ w1 : World Unit,
      prepareFiles (filenames "out".toList) { fs := treeWithOutput, trace := [] } = (true, w1) ∧
      w1.fs.cwd = treeWithOutput.cwd ∧
      (∀ l : Loc, w1.fs.node l =
        if (l = "KeyFrameTrajectory.txt".toList :: ["out".toList] ∨
            l = "images.txt".toList :: ["out".toList] ∨
            l = "points3D.txt".toList :: ["out".toList]) ∧ treeWithOutput.node l = none
        then some (Node.file []) else treeWithOutput.node l) ∧
      w1.trace = [] ++
        (if treeWithOutput.node ("KeyFrameTrajectory.txt".toList :: ["out".toList]) = none then
          [Event.openRead ("out".toList ++ "/KeyFrameTrajectory.txt".toList) false,
           Event.openWrite ("out".toList ++ "/KeyFrameTrajectory.txt".toList) true]
         else [Event.openRead ("out".toList ++ "/KeyFrameTrajectory.txt".toList) true]) ++
        (if treeWithOutput.node ("images.txt".toList :: ["out".toList]) = none then
          [Event.openRead ("out".toList ++ "/images.txt".toList) false,
           Event.openWrite ("out".toList ++ "/images.txt".toList) true]
         else [Event.openRead ("out".toList ++ "/images.txt".toList) true]) ++
        (if treeWithOutput.node ("points3D.txt".toList :: ["out".toList]) = none then
          [Event.openRead ("out".toList ++ "/points3D.txt".toList) false,
           Event.openWrite ("out".toList ++ "/points3D.txt".toList) true]
         else [Event.openRead ("out".toList ++ "/points3D.txt".toList) true]) :=
  prepareFiles_keeps_existing_files { fs := treeWithOutput, trace := [] } "out".toList
    ["out".toList] (by rfl) (by decide) (by decide) (by decide)

/-- C7: in a well-formed file system whose working directory exists and has no entry
`dataset`, for every time stamp `ts` of the form `YYYYMMDD_HHMMSS`, the three preparation
steps succeed and `main` goes on to the exports and returns 0.  In the state in which the
first export is called, `./dataset` is a directory whose only entry is `ts`, `./dataset/ts`
is a directory, and its entries are exactly `KeyFrameTrajectory.txt`, `images.txt` and
`points3D.txt`, each a file of length zero. -/
theorem fresh_session_layout {Img : Type} (effect : Event Img → FS → FS) (ts : CString)
    (w : World Img) (hwf : w.fs.WellFormed) (hcwd : w.fs.node w.fs.cwd = some Node.dir)
    (hfresh : w.fs.node ("dataset".toList :: w.fs.cwd) = none)
    (hts : isTimestamp ts = true) :
    ∃ w1 w2 w3 : World Img,
      createDirectoryWithParents World.mkdir "./dataset".toList w = some (true, w1) ∧
      createDirectory ("./dataset/".toList ++ ts) w1 = (true, w2) ∧
      prepareFiles (filenames ("./dataset/".toList ++ ts)) w2 = (true, w3) ∧
      shutdownSequence effect ts w =
        some (0, (((w3.export effect
          (Event.saveKeyFrameTrajectoryTUM
            (("./dataset/".toList ++ ts) ++ "/KeyFrameTrajectory.txt".toList))).export effect
          (Event.saveKeyPointsAndMapPoints
            (("./dataset/".toList ++ ts) ++ "/images.txt".toList))).export effect
          (Event.savePointcloud
            (("./dataset/".toList ++ ts) ++ "/points3D.txt".toList))).log Event.rosShutdown) ∧
      w3.fs.lookup "./dataset".toList = Except.ok ("dataset".toList :: w.fs.cwd, Node.dir) ∧
      (∀ n : Name, w3.fs.node (n :: "dataset".toList :: w.fs.cwd) ≠ none ↔ n = ts) ∧
      w3.fs.lookup ("./dataset/".toList ++ ts) =
        Except.ok (ts :: "dataset".toList :: w.fs.cwd, Node.dir) ∧
      (∀ n : Name, w3.fs.node (n :: ts :: "dataset".toList :: w.fs.cwd) ≠ none ↔
        (n = "KeyFrameTrajectory.txt".toList ∨ n = "images.txt".toList ∨
          n = "points3D.txt".toList)) ∧
      w3.fs.node ("KeyFrameTrajectory.txt".toList :: ts :: "dataset".toList :: w.fs.cwd) =
        some (Node.file []) ∧
      w3.fs.node ("images.txt".toList :: ts :: "dataset".toList :: w.fs.cwd) =
        some (Node.file []) ∧
      w3.fs.node ("points3D.txt".toList :: ts :: "dataset".toList :: w.fs.cwd) =
        some (Node.file []) := by
  have hp := isTimestamp_plain hts
  obtain ⟨m0, m1, m2, r2, r1⟩ := fresh_directories w.fs ts hwf hcwd hfresh hp
  obtain ⟨hnone, hsess⟩ := fresh_nodes w.fs ts hwf hfresh
  obtain ⟨hKI, hKP, hIP⟩ := names_distinct (ts :: "dataset".toList :: w.fs.cwd)
  have hnode := ensureFile_three ((w.fs.set ("dataset".toList :: w.fs.cwd) Node.dir).set
    (ts :: "dataset".toList :: w.fs.cwd) Node.dir) _ _ _ hKI hKP hIP
  obtain ⟨hcwd3, hmono⟩ := ensureFile_three_mono
    ((w.fs.set ("dataset".toList :: w.fs.cwd) Node.dir).set
      (ts :: "dataset".toList :: w.fs.cwd) Node.dir)
    ("KeyFrameTrajectory.txt".toList :: ts :: "dataset".toList :: w.fs.cwd)
    ("images.txt".toList :: ts :: "dataset".toList :: w.fs.cwd)
    ("points3D.txt".toList :: ts :: "dataset".toList :: w.fs.cwd)
  have l1 := lookup_of_resolvesToDir _ (resolvesToDir_mono _ _ hcwd3 hmono r1)
  have l2 := lookup_of_resolvesToDir _ (resolvesToDir_mono _ _ hcwd3 hmono r2)
  generalize (w.fs.set ("dataset".toList :: w.fs.cwd) Node.dir).set
    (ts :: "dataset".toList :: w.fs.cwd) Node.dir = fs2 at m2 r2 hnone hsess hnode l1 l2
  generalize w.fs.set ("dataset".toList :: w.fs.cwd) Node.dir = fs1 at m1 m2
  obtain ⟨tr1, hT⟩ : ∃ tr1, tryInOrder World.mkdir [".".toList, "./dataset".toList] w =
      (true, ({ fs := fs1, trace := tr1 } : World Img)) :=
    ⟨_, tryInOrder_two w _ _ fs1 MkdirResult.ok rfl m0 m1⟩
  obtain ⟨tr2, hC⟩ : ∃ tr2, createDirectory ("./dataset/".toList ++ ts)
      ({ fs := fs1, trace := tr1 } : World Img) = (true, ({ fs := fs2, trace := tr2 } : World Img)) :=
    ⟨_, createDirectory_eq ({ fs := fs1, trace := tr1 } : World Img) _ MkdirResult.ok fs2 m2⟩
  have hP := prepareFiles_run ({ fs := fs2, trace := tr2 } : World Img)
    ("./dataset/".toList ++ ts) (ts :: "dataset".toList :: w.fs.cwd) r2
    (by rw [hnone]; simp) (by rw [hnone]; simp) (by rw [hnone]; simp)
  refine ⟨_, _, _, (cdwp_dataset w).trans (congrArg some hT), hC, hP, ?_, l1, ?_, l2, ?_, ?_, ?_, ?_⟩
  · rw [shutdownSequence_eq, hT]
    simp only [hC, hP, Bool.true_eq_false, if_false]
  · intro n
    rw [hnode, hsess, if_neg]
    · by_cases e : n = ts <;> simp [e]
    · rintro ⟨h | h | h, _⟩ <;> exact cons_ne_cons_cons _ _ _ _ h
  · intro n
    rw [hnode, hnone]
    by_cases e1 : n = "KeyFrameTrajectory.txt".toList
    · simp [e1]
    · by_cases e2 : n = "images.txt".toList
      · simp [e2]
      · by_cases e3 : n = "points3D.txt".toList
        · simp [e3]
        · have : ¬ ((n :: ts :: "dataset".toList :: w.fs.cwd =
              "KeyFrameTrajectory.txt".toList :: ts :: "dataset".toList :: w.fs.cwd ∨
              n :: ts :: "dataset".toList :: w.fs.cwd =
              "images.txt".toList :: ts :: "dataset".toList :: w.fs.cwd ∨
              n :: ts :: "dataset".toList :: w.fs.cwd =
              "points3D.txt".toList :: ts :: "dataset".toList :: w.fs.cwd) ∧
              (none : Option Node) = none) := by
            rintro ⟨h | h | h, _⟩
            · injection h with h _; exact e1 h
            · injection h with h _; exact e2 h
            · injection h with h _; exact e3 h
          rw [if_neg this]
          simp only [ne_eq, not_true_eq_false, e1, e2, e3, or_self]
  · rw [hnode, hnone]; simp
  · rw [hnode, hnone]; simp
  · rw [hnode, hnone]; simp

/-- Witness for C7: the empty tree and the time stamp `20240101_101010`. -/
theorem fresh_session_layout_witness :
    (emptyTree.WellFormed ∧ emptyTree.node emptyTree.cwd = some Node.dir ∧
      emptyTree.node ("dataset".toList :: emptyTree.cwd) = none ∧
      isTimestamp "20240101_101010".toList = true) ∧
    (shutdownSequence (fun _ fs => fs) "20240101_101010".toList
      (World.mk emptyTree ([] : List (Event Unit)))).map Prod.fst = some 0 := by
  refine ⟨⟨emptyTree_wellFormed, by decide, by decide, by decide⟩, ?_⟩
  obtain ⟨_, _, w3, _, _, _, h, _⟩ :=
    fresh_session_layout (fun _ fs => fs) "20240101_101010".toList
      (World.mk emptyTree ([] : List (Event Unit))) emptyTree_wellFormed (by decide)
      (by decide) (by decide)
  rw [h]
  rfl

/-- C2 as stated fails when `dataset` is a regular file: `createDirectoryWithParents` returns
`true`, and `createDirectory` on the session directory is still called. -/
theorem dataset_file_counterexample :
    treeWithDatasetFile.lookup "./dataset".toList =
      Except.ok (["dataset".toList], Node.file "x".toList) ∧
    (createDirectoryWithParents World.mkdir "./dataset".toList
      ({ fs := treeWithDatasetFile, trace := [] } : World Unit)).map Prod.fst = some true ∧
    (main (quietEnv treeWithDatasetFile "20240101_101010".toList) 3
      ["Mono".toList, "voc".toList, "cfg".toList]).map (fun r => (r.1, r.2.trace)) =
      some (-1, [Event.rosInit, Event.rosStart, Event.systemCtor "voc".toList "cfg".toList,
        Event.subscribe "/camera/image_raw".toList 1, Event.rosSpin, Event.slamShutdown,
        Event.mkdir ".".toList (MkdirResult.fail Errno.EEXIST),
        Event.mkdir "./dataset".toList (MkdirResult.fail Errno.EEXIST),
        Event.mkdir "./dataset/20240101_101010".toList (MkdirResult.fail Errno.ENOTDIR),
        Event.rosShutdown]) := by
  refine ⟨by rfl, by decide, by decide⟩

/-- C2, amended: when `./dataset` is a regular file at shutdown and the time stamp has the
form `YYYYMMDD_HHMMSS`, `createDirectoryWithParents("./dataset")` returns `true` (both of its
`mkdir` calls fail with `EEXIST`), `createDirectory` on the session directory is called and
fails with `ENOTDIR`, and `main` returns -1.  These three `mkdir` calls are the only file
system calls of the run, no export is called, and the file system is unchanged. -/
theorem dataset_file_stops_at_session_directory {Msg Img : Type} (env : Env Msg Img)
    (argv : List CString) (L : Loc) (c : CString)
    (hfile : env.fsAtShutdown.lookup "./dataset".toList = Except.ok (L, Node.file c))
    (hts : isTimestamp env.currentTime = true) :
    ∃ w0 wEnd : World Img,
      w0.fs = env.fsAtShutdown ∧
      main env 3 argv = shutdownSequence env.exportEffect env.currentTime w0 ∧
      (createDirectoryWithParents World.mkdir "./dataset".toList w0).map Prod.fst = some true ∧
      main env 3 argv = some (-1, wEnd) ∧
      wEnd.fs = env.fsAtShutdown ∧
      wEnd.trace.filter Event.isFileOp =
        [Event.mkdir ".".toList (MkdirResult.fail Errno.EEXIST),
         Event.mkdir "./dataset".toList (MkdirResult.fail Errno.EEXIST),
         Event.mkdir ("./dataset/".toList ++ env.currentTime)
           (MkdirResult.fail Errno.ENOTDIR)] ∧
      exportCalls wEnd.trace = [] := by
  obtain ⟨pre, hexp, hops, hmain⟩ := main_session_quiet env argv
  obtain ⟨m0, m1, m2⟩ := blocked_directories env.fsAtShutdown env.currentTime hfile
    (isTimestamp_plain hts)
  have hT := tryInOrder_two ({ fs := env.fsAtShutdown, trace := pre } : World Img)
    ".".toList "./dataset".toList env.fsAtShutdown (MkdirResult.fail Errno.EEXIST) rfl m0 m1
  have hC := createDirectory_eq
    (World.mk env.fsAtShutdown
      (pre ++ [Event.mkdir ".".toList (MkdirResult.fail Errno.EEXIST),
        Event.mkdir "./dataset".toList (MkdirResult.fail Errno.EEXIST)]))
    ("./dataset/".toList ++ env.currentTime) (MkdirResult.fail Errno.ENOTDIR)
    env.fsAtShutdown m2
  have hS : shutdownSequence env.exportEffect env.currentTime
      (World.mk env.fsAtShutdown pre) =
      some (-1, World.mk env.fsAtShutdown
        (pre ++ [Event.mkdir ".".toList (MkdirResult.fail Errno.EEXIST),
          Event.mkdir "./dataset".toList (MkdirResult.fail Errno.EEXIST)] ++
          [Event.mkdir ("./dataset/".toList ++ env.currentTime)
            (MkdirResult.fail Errno.ENOTDIR)] ++ [Event.rosShutdown])) := by
    rw [shutdownSequence_eq, hT]
    simp only [hC, Bool.true_eq_false, if_false, MkdirResult.okOrExists, World.log]
    rfl
  refine ⟨_, _, rfl, hmain, ?_, hmain.trans hS, rfl, ?_, ?_⟩
  · rw [cdwp_dataset, hT]; rfl
  · simp only [List.filter_append, hops, List.nil_append]
    rfl
  · simp only [exportCalls, List.filter_append] at hexp ⊢
    rw [hexp]
    rfl

/-- Witness for the amended C2: the tree with a regular file `dataset`. -/
theorem dataset_file_stops_at_session_directory_witness :
    (treeWithDatasetFile.lookup "./dataset".toList =
        Except.ok (["dataset".toList], Node.file "x".toList) ∧
      isTimestamp "20240101_101010".toList = true) ∧
    ∃ wEnd : World Unit,
      main (quietEnv treeWithDatasetFile "20240101_101010".toList) 3 [] = some (-1, wEnd) := by
  refine ⟨⟨by rfl, by decide⟩, ?_⟩
  obtain ⟨_, wEnd, _, _, _, h, _⟩ :=
    dataset_file_stops_at_session_directory
      (quietEnv treeWithDatasetFile "20240101_101010".toList) [] ["dataset".toList]
      "x".toList (by rfl) (by decide)
  exact ⟨wEnd, h⟩

/-- C3 as stated fails for a segment longer than `NAME_MAX`: the path made of one segment of
256 letters `a` meets every condition of the claim in the empty tree, yet the only `mkdir`
fails with `ENAMETOOLONG` and `createDirectoryWithParents` returns `false`.  It also fails for
a segment that holds a NUL: on the segments `a NUL b` and `c` both calls reach the kernel as
`mkdir("a")`, so the second directory of the chain is never created. -/
theorem long_segment_counterexample :
    plainName (List.replicate 256 'a') = true ∧
    emptyTree.node emptyTree.cwd = some Node.dir ∧
    emptyTree.node (List.replicate 256 'a' :: emptyTree.cwd) = none ∧
    (createDirectoryWithParents World.mkdirC (joinPath [List.replicate 256 'a'])
      (World.mk emptyTree ([] : List (Event Unit)))).map (fun r => (r.1, r.2.trace)) =
      some (false, [Event.mkdir (List.replicate 256 'a')
        (MkdirResult.fail Errno.ENAMETOOLONG)]) ∧
    plainName ['a', NUL, 'b'] = true ∧ plainName ['c'] = true ∧
    emptyTree.node (['a', NUL, 'b'] :: emptyTree.cwd) = none ∧
    (createDirectoryWithParents World.mkdirC (joinPath [['a', NUL, 'b'], ['c']])
      (World.mk emptyTree ([] : List (Event Unit)))).map (fun r => (r.1, r.2.trace)) =
      some (true, [Event.mkdir ['a'] MkdirResult.ok,
        Event.mkdir ['a'] (MkdirResult.fail Errno.EEXIST)]) := by
  refine ⟨by decide, by decide, by decide, ?_, by decide, by decide, by decide, by decide⟩
  set_option maxRecDepth 1000000 in decide

/-- C1 as stated fails: with a regular file `f` in the working directory, the call on `f/x`
returns `false`, but the `mkdir` on the segment `f` fails with `EEXIST` and is tolerated, and
the last `mkdir` attempted is the one on the longer prefix `f/x`. -/
theorem ancestor_file_counterexample :
    treeWithFile.lookup "f".toList = Except.ok (["f".toList], Node.file "x".toList) ∧
    "f/x".toList.take 1 = "f".toList ∧ "f/x".toList[1]? = some '/' ∧
    (createDirectoryWithParents World.mkdir "f/x".toList
      (World.mk treeWithFile ([] : List (Event Unit)))).map (fun r => (r.1, r.2.trace)) =
      some (false, [Event.mkdir "f".toList (MkdirResult.fail Errno.EEXIST),
        Event.mkdir "f/x".toList (MkdirResult.fail Errno.ENOTDIR)]) := by
  refine ⟨by rfl, by decide, by decide, by decide⟩

/-- C1, amended: let the prefix `q` of `p = q/r` name a regular file, `r` holding at least one
further segment.  Then `createDirectoryWithParents(p)` returns `false`.  Its `mkdir` calls
are: attempts that all fail with `EEXIST` and are tolerated, the one on `q` among them, and
then a last one, failing with `ENOTDIR`, on a longer prefix `q/x` of `p` in which `x` holds a
segment.  Nothing is attempted after it, and the file system is unchanged. -/
theorem ancestor_file_fails_below_it {Img : Type} (w : World Img) (q r : CString) (L : Loc)
    (c : CString) (hlen : (q ++ '/' :: r).length < npos)
    (hfile : w.fs.lookup q = Except.ok (L, Node.file c)) (hr : components r ≠ []) :
    ∃ (pre : List CString) (d : CString),
      createDirectoryWithParents World.mkdir (q ++ '/' :: r) w =
        some (false, World.mk w.fs
          (w.trace ++ pre.map (fun p => Event.mkdir p (MkdirResult.fail Errno.EEXIST)) ++
            [Event.mkdir d (MkdirResult.fail Errno.ENOTDIR)])) ∧
      q ∈ pre ∧
      ∃ x y, r = x ++ y ∧ components x ≠ [] ∧ d = q ++ '/' :: x := by
  rcases lookup_ok_cases w.fs hfile with ⟨h, _⟩ | ⟨c1, D, n, _, _, hp, hn⟩
  · cases h
  · have hq : q ≠ [] := hp.1
    obtain ⟨preB, d, tl, hB, hpreB, x, y, hxy, hx, hd⟩ :=
      attemptsFrom_after q r [] (by decide) hr
    have hseq : attemptSequence (q ++ '/' :: r) =
        ((attemptsFrom [] q).dropLast ++ q :: preB) ++ d :: tl := by
      rw [attemptSequence_eq_attemptsFrom, attemptsFrom_append]
      simp only [List.nil_append, attemptsFrom, true_and, ne_eq, hq, not_false_eq_true, if_true]
      rw [show q ++ ['/'] = q ++ '/' :: [] from rfl, hB]
      simp
    have mq : w.fs.mkdir q = (MkdirResult.fail Errno.EEXIST, w.fs) := by
      rw [mkdir_of_parentIs w.fs hp, hn]
    have hpre : ∀ e ∈ (attemptsFrom [] q).dropLast ++ q :: preB,
        w.fs.mkdir e = (MkdirResult.fail Errno.EEXIST, w.fs) := by
      intro e he
      rcases List.mem_append.mp he with he | he
      · obtain ⟨hne, rest, hrest⟩ := attemptsFrom_dropLast_mem q [] e he
        exact mkdir_before_file w.fs hp (by simpa using hrest) hne
      · rcases List.mem_cons.mp he with he | he
        · rw [he]; exact mq
        · obtain ⟨x1, hx1, hx2⟩ := hpreB e he
          rw [hx1, ← mq]
          apply mkdir_congr w.fs (by simp) hq (start_append w.fs hq _)
          rw [components_append_slash, hx2, List.append_nil]
    have md : w.fs.mkdir d = (MkdirResult.fail Errno.ENOTDIR, w.fs) := by
      rw [hd]; exact mkdir_under_file w.fs hp hn x hx
    refine ⟨(attemptsFrom [] q).dropLast ++ q :: preB, d, ?_, by simp, x, y, by simpa using hxy,
      hx, hd⟩
    rw [createDirectoryWithParents_eq World.mkdir _ hlen, hseq]
    exact congrArg some (tryInOrder_stop w.fs _ d tl w.trace hpre md)

/-- Witness for the amended C1: the path `f/x` where `f` is a regular file. -/
theorem ancestor_file_fails_below_it_witness :
    ("f".toList ++ '/' :: "x".toList).length < npos ∧
    treeWithFile.lookup "f".toList = Except.ok (["f".toList], Node.file "x".toList) ∧
    components "x".toList ≠ [] ∧
    ∃ (pre : List CString) (d : CString),
      createDirectoryWithParents World.mkdir ("f".toList ++ '/' :: "x".toList)
        (World.mk treeWithFile ([] : List (Event Unit))) =
        some (false, World.mk treeWithFile
          ([] ++ pre.map (fun p => Event.mkdir p (MkdirResult.fail Errno.EEXIST)) ++
            [Event.mkdir d (MkdirResult.fail Errno.ENOTDIR)])) ∧
      "f".toList ∈ pre ∧
      ∃ x y, "x".toList = x ++ y ∧ components x ≠ [] ∧ d = "f".toList ++ '/' :: x :=
  ⟨by decide, by rfl, by decide,
    ancestor_file_fails_below_it (World.mk treeWithFile ([] : List (Event Unit)))
      "f".toList "x".toList ["f".toList] "x".toList (by decide) (by rfl) (by decide)⟩

/-- C3, amended: let `p = s1/s2/.../sn` be written from `n ≥ 1` plain segments (not empty,
without separator, neither `.` nor `..`), each without NUL and at most `NAME_MAX` characters
long, `p` itself shorter than `PATH_MAX`, in a well-formed file system whose working directory
exists and has no entry `s1`.  Then `createDirectoryWithParents(p)` returns `true`; its `mkdir`
calls are the successful creations of `s1`, `s1/s2`, ..., `s1/.../sn` in this order;
afterwards each of these prefixes names a directory.  A second call on the resulting state
returns `true` again and leaves the file system as it is. -/
theorem createDirectoryWithParents_creates_within_limits {Img : Type} (w : World Img)
    (segs : List Name) (hne : segs ≠ []) (hplain : ∀ s ∈ segs, plainName s = true)
    (hnul : ∀ s ∈ segs, NUL ∉ s) (hname : ∀ s ∈ segs, s.length ≤ NAME_MAX)
    (hpath : (joinPath segs).length < PATH_MAX) (hwf : w.fs.WellFormed)
    (hcwd : w.fs.node w.fs.cwd = some Node.dir)
    (hfresh : ∀ s, segs.head? = some s → w.fs.node (s :: w.fs.cwd) = none) :
    ∃ w1 w2 : World Img,
      createDirectoryWithParents World.mkdirC (joinPath segs) w = some (true, w1) ∧
      w1.trace = w.trace ++ (List.range segs.length).map
        (fun k => Event.mkdir (joinPath (segs.take (k + 1))) MkdirResult.ok) ∧
      (∀ k, k < segs.length →
        w1.fs.lookup (joinPath (segs.take (k + 1))) =
          Except.ok ((segs.take (k + 1)).reverse ++ w.fs.cwd, Node.dir)) ∧
      createDirectoryWithParents World.mkdirC (joinPath segs) w1 = some (true, w2) ∧
      w2.fs = w1.fs := by
  have hlim : withinLimits (joinPath segs) = true := by
    apply withinLimits_intro (nul_not_mem_joinPath segs hnul) hpath
    rw [components_joinPath segs hplain]
    exact hname
  have hlen : (joinPath segs).length < npos := Nat.lt_trans hpath pathMax_lt_npos
  obtain ⟨w1, w2, h1, h2, h3, h4, h5⟩ :=
    chain_created_without_limits w segs hne hplain hlen hwf hcwd hfresh
  refine ⟨w1, w2, ?_, h2, h3, ?_, h5⟩
  · rw [cdwp_mkdirC_eq hlim w]; exact h1
  · rw [cdwp_mkdirC_eq hlim w1]; exact h4

/-- Witness for the amended C3: the path `a/b/c` in the empty tree. -/
theorem createDirectoryWithParents_creates_within_limits_witness :
    (emptyTree.WellFormed ∧ emptyTree.node emptyTree.cwd = some Node.dir ∧
      emptyTree.node ("a".toList :: emptyTree.cwd) = none ∧
      (joinPath ["a".toList, "b".toList, "c".toList]).length < PATH_MAX) ∧
    ∃ w1 w2 : World Unit,
      createDirectoryWithParents World.mkdirC
        (joinPath ["a".toList, "b".toList, "c".toList]) (World.mk emptyTree []) =
          some (true, w1) ∧
      createDirectoryWithParents World.mkdirC
        (joinPath ["a".toList, "b".toList, "c".toList]) w1 = some (true, w2) ∧
      w2.fs = w1.fs := by
  refine ⟨⟨emptyTree_wellFormed, by decide, by decide, by decide⟩, ?_⟩
  obtain ⟨w1, w2, h1, _, _, h2, h3⟩ :=
    createDirectoryWithParents_creates_within_limits
      (World.mk emptyTree ([] : List (Event Unit)))
      ["a".toList, "b".toList, "c".toList] (by decide) (by decide) (by decide) (by decide)
      (by decide) emptyTree_wellFormed (by decide)
      (by intro s hs; injection hs with hs; subst hs; decide)
  exact ⟨w1, w2, h1, h2, h3⟩

end RosMono
